import Mathlib

/-!
Verification development for the rosemary trading-strategy repository.

Each definition is a shallow embedding of a function of the repository,
translated line by line from the Python source named in its doc comment.
Machine floating-point numbers are modelled as exact rationals (`ℚ`) except
where genuine float special values (NaN from undefined rolling windows,
infinity from division by zero) matter, in which case an explicit option
type or the `PFloat` type below is used, and except for the transcendental
functions (exp, sqrt, real powers) of the soft allocator and the risk
targeting engine, which are modelled over `ℝ`.
-/

namespace Rosemary

/-! ## Position Lifecycle Engine: walk-forward sized variant
Embeds the per-symbol loop of `run_strategy_on_test`
(`scripts/backtest_walkforward.py`, lines 75-115).  A row carries the
columns read by the loop: `ret_20d`, the model prediction for the row, and
the forward return `y_ret_1d`.  The fold-level quantities `threshold` and
`pred_std`, which the source computes from the whole test set before the
loop (lines 66-69), are parameters of the core loop here. -/

structure WfRow where
  ret20d : ℚ
  prediction : ℚ
  yRet1d : ℚ
deriving DecidableEq

structure WfParams where
  holdDays : ℕ
  cost : ℚ
  threshold : ℚ
  predStd : ℚ
deriving DecidableEq

/-- Engine state carried across dates: `position` and `days_left`. -/
structure EngState where
  position : ℚ
  daysLeft : ℕ
deriving DecidableEq

/-- One output record of the engine: the recorded (post-transition)
position and the net return of the date. -/
structure Rec where
  pos : ℚ
  net : ℚ
deriving DecidableEq

/-- Position size taken on entry in the sized variant, line 93 of
`backtest_walkforward.py`: `min(prediction / pred_std, 1.0)` when
`pred_std > 0`, else `0.0`. -/
def wfEntrySize (ps : WfParams) (r : WfRow) : ℚ :=
  if 0 < ps.predStd then min (r.prediction / ps.predStd) 1 else 0

/-- Entry gate of the sized variant (lines 85 and 91): the trend filter
`ret_20d > 0` together with `prediction > threshold`. -/
def wfEntryCond (ps : WfParams) (r : WfRow) : Prop :=
  0 < r.ret20d ∧ ps.threshold < r.prediction

instance (ps : WfParams) (r : WfRow) : Decidable (wfEntryCond ps r) :=
  inferInstanceAs (Decidable (_ ∧ _))

/-- One date of the walk-forward loop (lines 82-103): decrement
`days_left` when positive, then either enter (position was 0 and the gate
holds: take the sized position, reset `days_left = hold_days`, charge
entry cost), or exit (position positive and the decremented counter is 0:
charge exit cost, flatten), or hold.  The net return multiplies the
post-transition position by the forward return. -/
def wfStep (ps : WfParams) (st : EngState) (r : WfRow) : Rec × EngState :=
  let d1 := if 0 < st.daysLeft then st.daysLeft - 1 else st.daysLeft
  if st.position = 0 ∧ wfEntryCond ps r then
    let p := wfEntrySize ps r
    ⟨⟨p, p * r.yRet1d - p * ps.cost⟩, ⟨p, ps.holdDays⟩⟩
  else if 0 < st.position ∧ d1 = 0 then
    ⟨⟨0, 0 * r.yRet1d - st.position * ps.cost⟩, ⟨0, d1⟩⟩
  else
    ⟨⟨st.position, st.position * r.yRet1d⟩, ⟨st.position, d1⟩⟩

/-- Date-ordered fold of a lifecycle step over one symbol's rows,
emitting one record per row. -/
def runLifecycle {α : Type} (step : EngState → α → Rec × EngState) :
    EngState → List α → List Rec
  | _, [] => []
  | st, r :: rest => (step st r).1 :: runLifecycle step (step st r).2 rest

/-- State of the lifecycle after consuming a list of rows. -/
def lifecycleState {α : Type} (step : EngState → α → Rec × EngState) :
    EngState → List α → EngState
  | st, [] => st
  | st, r :: rest => lifecycleState step (step st r).2 rest

/-- Per-symbol loop of `run_strategy_on_test` with the fold-level
threshold parameters given explicitly; initial state is position 0,
`days_left` 0 (lines 78-79). -/
def run_strategy_core (ps : WfParams) (rows : List WfRow) : List Rec :=
  runLifecycle (wfStep ps) ⟨0, 0⟩ rows

/-! ## Position Lifecycle Engine: fixed-size mean-reversion variant
Embeds `run_mean_reversion_on_test`
(`scripts/backtest_walkforward_meanrev.py`, lines 42-102) for a test set
holding a single symbol (the loop body, lines 62-92, is identical for
every symbol; the volatility threshold, line 52, is the `rvol_10`
quantile of the whole test set). -/

structure MrRow where
  rvol10 : ℚ
  ret5d : ℚ
  yRet1d : ℚ
deriving DecidableEq

/-- Entry gate of the fixed-size variant (lines 66-67 and 72):
`rvol_10 <= vol_threshold` and `ret_5d < -oversold_thresh`. -/
def mrEntryCond (volThr oversold : ℚ) (r : MrRow) : Prop :=
  r.rvol10 ≤ volThr ∧ r.ret5d < -oversold

instance (volThr oversold : ℚ) (r : MrRow) :
    Decidable (mrEntryCond volThr oversold r) :=
  inferInstanceAs (Decidable (_ ∧ _))

/-- One date of the mean-reversion loop (lines 62-81); entries take the
fixed position 1.0. -/
def mrStep (hold : ℕ) (cost volThr oversold : ℚ) (st : EngState)
    (r : MrRow) : Rec × EngState :=
  let d1 := if 0 < st.daysLeft then st.daysLeft - 1 else st.daysLeft
  if st.position = 0 ∧ mrEntryCond volThr oversold r then
    ⟨⟨1, 1 * r.yRet1d - 1 * cost⟩, ⟨1, hold⟩⟩
  else if 0 < st.position ∧ d1 = 0 then
    ⟨⟨0, 0 * r.yRet1d - st.position * cost⟩, ⟨0, d1⟩⟩
  else
    ⟨⟨st.position, st.position * r.yRet1d⟩, ⟨st.position, d1⟩⟩

/-- Mean-reversion loop with the fold-level volatility threshold given
explicitly. -/
def run_mean_reversion_core (hold : ℕ) (cost volThr oversold : ℚ)
    (rows : List MrRow) : List Rec :=
  runLifecycle (mrStep hold cost volThr oversold) ⟨0, 0⟩ rows

/-- Insertion of a rational into a sorted list (ascending). -/
def insertAsc (x : ℚ) : List ℚ → List ℚ
  | [] => [x]
  | y :: ys => if x ≤ y then x :: y :: ys else y :: insertAsc x ys

/-- Insertion sort, ascending. -/
def sortAsc : List ℚ → List ℚ
  | [] => []
  | x :: xs => insertAsc x (sortAsc xs)

/-- Linear-interpolation quantile of a list of rationals, the default
`Series.quantile` of pandas used on line 52 of
`backtest_walkforward_meanrev.py`: on the ascending sorted values
`x_0, ..., x_(n-1)`, position `h = q * (n - 1)`, the result is
`x_i + (h - i) * (x_(i+1) - x_i)` with `i = floor h` (and `x_(n-1)` at
the top).  The empty list (quantile of an empty series is NaN) is mapped
to 0 and excluded by hypotheses where it matters. -/
def quantileQ (q : ℚ) (xs : List ℚ) : ℚ :=
  let s := sortAsc xs
  let n := s.length
  if n = 0 then 0
  else
    let h := q * ((n : ℚ) - 1)
    let i := (⌊h⌋).toNat
    let lo := s.getD i 0
    if i + 1 < n then lo + (h - (i : ℚ)) * (s.getD (i + 1) 0 - lo) else lo

/-- Full `run_mean_reversion_on_test` for a single-symbol test set:
computes `cost = cost_bps / 10000` (line 51) and the volatility gate
threshold as the `vol_pctl` quantile of the test set's `rvol_10` column
(line 52), then runs the per-symbol loop. -/
def run_mean_reversion_on_test (hold : ℕ) (costBps oversold volPctl : ℚ)
    (rows : List MrRow) : List Rec :=
  run_mean_reversion_core hold (costBps / 10000)
    (quantileQ volPctl (rows.map MrRow.rvol10)) oversold rows

/-! ## Position Lifecycle Engine: trend variant
Embeds the holding loop of `generate_trend_positions`
(`phase_2/scripts/strategies/trend/trend_strategy_v1.py`, lines 72-87).
The per-row entry signal `can_enter` (prediction above threshold and
`ret_20d > 0`, with undefined features comparing false, lines 63-70) is
taken as the input list; the loop state `hold_remaining` is a Python
integer, modelled as `ℤ`. -/

def trendGo (holdDays : ℕ) : ℤ → List Bool → List ℚ
  | _, [] => []
  | rem, b :: rest =>
    if 0 < rem then 1 :: trendGo holdDays (rem - 1) rest
    else if b then 1 :: trendGo holdDays ((holdDays : ℤ) - 1) rest
    else 0 :: trendGo holdDays rem rest

/-- Loop state of `generate_trend_positions` after consuming a list of
entry signals. -/
def trendRem (holdDays : ℕ) : ℤ → List Bool → ℤ
  | rem, [] => rem
  | rem, b :: rest =>
    if 0 < rem then trendRem holdDays (rem - 1) rest
    else if b then trendRem holdDays ((holdDays : ℤ) - 1) rest
    else trendRem holdDays rem rest

/-- Position series of `generate_trend_positions`: the loop of lines
72-87 started with `hold_remaining = 0`. -/
def generate_trend_positions (holdDays : ℕ) (canEnter : List Bool) :
    List ℚ :=
  trendGo holdDays 0 canEnter

/-! ## Regime Classifier (hysteretic)
Embeds `phase_3/strategies/meta/meta_allocator_hysteresis_v1.py`.  The
string state tag is a closed enumeration; a feature that is NaN (warm-up
window) is `none`. -/

inductive RState where
  | TREND
  | MEANREV
  | CASH
deriving DecidableEq

/-- Regime feature row `mom_20, mom_60, vol_20, drawdown_60`; `none`
is a NaN from an insufficient rolling window. -/
structure RegimeRow where
  mom20 : Option ℚ
  mom60 : Option ℚ
  vol20 : Option ℚ
  dd60 : Option ℚ
deriving DecidableEq

/-- At least one required feature of the row is NaN (the disjunction
tested on line 34 of `meta_allocator_hysteresis_v1.py`). -/
def rowHasNaN (r : RegimeRow) : Prop :=
  r.mom60 = none ∨ r.mom20 = none ∨ r.vol20 = none ∨ r.dd60 = none

instance (r : RegimeRow) : Decidable (rowHasNaN r) :=
  inferInstanceAs (Decidable (_ ∨ _ ∨ _ ∨ _))

/-- Hysteresis parameter table (the keys of `DEFAULT_HYST_PARAMS`,
lines 7-20). -/
structure HystParams where
  trendEnterMom60 : ℚ
  trendEnterMom20 : ℚ
  trendExitMom60 : ℚ
  trendExitMom20 : ℚ
  mrEnterMom20 : ℚ
  mrEnterDd60 : ℚ
  mrEnterVol20Max : ℚ
  mrExitMom20 : ℚ
  mrExitDd60 : ℚ
  mrExitVol20Max : ℚ
deriving DecidableEq

/-- Default parameter values of `DEFAULT_HYST_PARAMS` (lines 7-20). -/
def DEFAULT_HYST_PARAMS : HystParams where
  trendEnterMom60 := 0
  trendEnterMom20 := -5/1000
  trendExitMom60 := -2/100
  trendExitMom20 := -2/100
  mrEnterMom20 := -25/1000
  mrEnterDd60 := -3/100
  mrEnterVol20Max := 40/100
  mrExitMom20 := -5/1000
  mrExitDd60 := -1/100
  mrExitVol20Max := 45/100

/-- Transition function `decide_state_hysteresis_v1` (lines 22-71): any
NaN feature returns CASH; otherwise separate enter and exit conditions
are evaluated and the branch on `prev_state` of lines 53-71 is taken. -/
def decide_state_hysteresis_v1 (row : RegimeRow) (prevState : RState)
    (p : HystParams) : RState :=
  match row.mom60, row.mom20, row.vol20, row.dd60 with
  | some m60, some m20, some v20, some d60 =>
    let trendEnter := p.trendEnterMom60 < m60 ∧ p.trendEnterMom20 < m20
    let trendExit := m60 < p.trendExitMom60 ∨ m20 < p.trendExitMom20
    let mrEnter :=
      m20 < p.mrEnterMom20 ∧ d60 < p.mrEnterDd60 ∧ v20 < p.mrEnterVol20Max
    let mrExit :=
      p.mrExitMom20 < m20 ∨ p.mrExitDd60 < d60 ∨ p.mrExitVol20Max < v20
    match prevState with
    | .TREND =>
      if trendExit then (if mrEnter then .MEANREV else .CASH) else .TREND
    | .MEANREV =>
      if mrExit then (if trendEnter then .TREND else .CASH) else .MEANREV
    | .CASH =>
      if trendEnter then .TREND else if mrEnter then .MEANREV else .CASH
  | _, _, _, _ => .CASH

/-- Date-ordered fold of the transition function, emitting the state of
each date (the loop of lines 84-87 of
`meta_allocator_hysteresis_v1.py`), started from a given previous
state. -/
def buildStatesFrom (p : HystParams) : RState → List RegimeRow → List RState
  | _, [] => []
  | prev, r :: rest =>
    decide_state_hysteresis_v1 r prev p ::
      buildStatesFrom p (decide_state_hysteresis_v1 r prev p) rest

/-- Daily state series `build_state_series_hysteresis_v1` (lines 73-89):
the fold started from CASH.  The source sorts the frame by date first;
the embedding takes the rows already date-sorted. -/
def build_state_series_hysteresis_v1 (rows : List RegimeRow)
    (p : HystParams) : List RState :=
  buildStatesFrom p .CASH rows

/-! ## Regime Blender (soft)
Embeds `phase_3/strategies/meta/meta_allocator_soft_v1.py` over `ℝ`
(the logistic gates are transcendental). -/

/-- Logistic gate `sigmoid(x, k) = 1 / (1 + exp(-k * x))` (lines 4-9 of
`meta_allocator_soft_v1.py`). -/
noncomputable def sigmoid (x k : ℝ) : ℝ :=
  1 / (1 + Real.exp (-k * x))

/-- Trend confidence `trend_score` (lines 11-17), with its default
steepness `k = 8`. -/
noncomputable def trend_score (m60 m20 : ℝ) : ℝ :=
  sigmoid m60 8 * sigmoid m20 8

/-- Mean-reversion confidence `meanrev_score` (lines 19-28), with its
default `k = 8` and the volatility gate at `k = 12`. -/
noncomputable def meanrev_score (m20 d60 v20 : ℝ) : ℝ :=
  sigmoid (-m20) 8 * sigmoid (-d60) 8 * sigmoid (40/100 - v20) 12

/-- Cash confidence `cash_score` (lines 30-36). -/
noncomputable def cash_score (trendS meanrevS v20 : ℝ) : ℝ :=
  7/10 * (1 - max trendS meanrevS) + 3/10 * sigmoid (v20 - 35/100) 10

/-- Soft weight vector over the trend, mean-reversion and cash books. -/
structure SoftW where
  wTrend : ℝ
  wMeanrev : ℝ
  wCash : ℝ

/-- The regularizer `eps = 1e-12` appearing in `scores_to_weights` and
`power_normalize_weights`. -/
noncomputable def softEps : ℝ := 1/10^12

/-- Score normalization `scores_to_weights` (lines 38-47): divide each
score by the sum of the three scores plus `eps`. -/
noncomputable def scores_to_weights (t m c : ℝ) : SoftW where
  wTrend := t / (t + m + c + softEps)
  wMeanrev := m / (t + m + c + softEps)
  wCash := c / (t + m + c + softEps)

/-- Per-row soft weights `compute_soft_weights_row` (lines 49-66): a row
with any NaN feature gets the cash-only vector, otherwise the three
scores are computed and normalized. -/
noncomputable def compute_soft_weights_row (row : RegimeRow) : SoftW :=
  match row.mom60, row.mom20, row.vol20, row.dd60 with
  | some m60, some m20, some v20, some d60 =>
    let t := trend_score (m60 : ℝ) (m20 : ℝ)
    let m := meanrev_score (m20 : ℝ) (d60 : ℝ) (v20 : ℝ)
    let c := cash_score t m (v20 : ℝ)
    scores_to_weights t m c
  | _, _, _, _ => ⟨0, 0, 1⟩

/-- Power sharpening `power_normalize_weights` (lines 68-84): raise each
weight, floored at 0, to the real exponent `gamma` and renormalize with
the same `eps` regularizer. -/
noncomputable def power_normalize_weights (wt wm wc γ : ℝ) : SoftW :=
  let a := max wt 0 ^ γ
  let b := max wm 0 ^ γ
  let c := max wc 0 ^ γ
  ⟨a / (a + b + c + softEps), b / (a + b + c + softEps),
    c / (a + b + c + softEps)⟩

/-! ## Risk Targeting Engine
Embeds `apply_vol_targeting`
(`phase_2/scripts/strategies/meta/risk_targeting_v1.py`, lines 4-23).
The rolling standard deviation is `sqrt` of the rolling sample variance
(ddof 1), undefined (`none`) while the trailing window is shorter than
the lookback or the lookback admits no ddof-1 estimate.  `PFloat` models
the float special values the leverage series can hold. -/

/-- Sample variance (ddof 1) of a window, `sum (x - mean)^2 / (n - 1)`;
only used for windows of length at least 2. -/
def sampleVar (w : List ℚ) : ℚ :=
  let n : ℚ := w.length
  let μ := w.sum / n
  (w.map fun x => (x - μ) ^ 2).sum / (n - 1)

/-- Rolling sample variance over a trailing `lookback` window, the
square of the pandas `rolling(lookback).std()` of line 16: `none` until
the window is full (and everywhere when `lookback < 2`, where the ddof-1
standard deviation is NaN). -/
def rollingVar (lookback : ℕ) (xs : List ℚ) : List (Option ℚ) :=
  (List.range xs.length).map fun i =>
    if lookback ≤ i + 1 ∧ 2 ≤ lookback then
      some (sampleVar ((xs.take (i + 1)).drop (i + 1 - lookback)))
    else none

/-- Float value of the leverage series before clipping: NaN, positive
infinity, or an ordinary real. -/
inductive PFloat where
  | nan
  | inf
  | val (x : ℝ)

/-- Leverage ratio `target_daily / realized_daily` of line 18 applied to
one date, for a positive daily target: NaN stays NaN, a zero standard
deviation (zero variance) divides to positive infinity, otherwise the
ordinary quotient by `sqrt` of the variance. -/
noncomputable def levRatio (targetDaily : ℝ) : Option ℚ → PFloat
  | none => .nan
  | some v => if v = 0 then .inf else .val (targetDaily / Real.sqrt (v : ℝ))

/-- Lines 19 applied to one date: `clip(lower=0.0, upper=max_leverage)`
(which caps positive infinity at the upper bound and passes NaN through)
followed by `fillna(0.0)`. -/
noncomputable def clipFill (maxLev : ℝ) : PFloat → ℝ
  | .nan => 0
  | .inf => maxLev
  | .val x => max 0 (min x maxLev)

/-- Leverage series of `apply_vol_targeting`: the daily target is
`target_vol_annual / sqrt 252` (line 15), the realized daily volatility
the rolling standard deviation (line 16), and each date's leverage the
clipped, NaN-filled ratio (lines 18-19). -/
noncomputable def apply_vol_targeting_lev (targetVolAnnual : ℝ)
    (lookback : ℕ) (maxLev : ℝ) (raw : List ℚ) : List ℝ :=
  (rollingVar lookback raw).map fun o =>
    clipFill maxLev (levRatio (targetVolAnnual / Real.sqrt 252) o)

/-- Output return series `meta_ret = raw_ret * lev` of line 22. -/
noncomputable def apply_vol_targeting_meta (targetVolAnnual : ℝ)
    (lookback : ℕ) (maxLev : ℝ) (raw : List ℚ) : List ℝ :=
  List.zipWith (fun (r : ℚ) (l : ℝ) => (r : ℝ) * l) raw
    (apply_vol_targeting_lev targetVolAnnual lookback maxLev raw)

/-! ## Portfolio Constructor
Embeds the per-date weight computation of `compute_inverse_vol_weights`
(`phase_2/scripts/strategies/portfolio/portfolio_constructor_v1.py`,
lines 29-54).  Each date's row is processed independently from that
date's vector of per-asset rolling volatilities (`none` is the NaN of a
warm-up window); the remaining lines are elementwise and row-sum
operations embedded below, with the pandas row sum skipping NaN. -/

/-- NaN-skipping row sum (`sum(axis=1)` of lines 46 and 50). -/
def osum (l : List (Option ℚ)) : ℚ :=
  (l.map fun o => o.getD 0).sum

/-- Inverse volatilities of lines 43-44: `1 / vol`, with the infinity
from a zero volatility replaced by NaN. -/
def invVolRow (vols : List (Option ℚ)) : List (Option ℚ) :=
  vols.map fun o => o.bind fun v => if v = 0 then none else some (1 / v)

/-- One date of `compute_inverse_vol_weights` (lines 43-52): inverse
volatilities, first normalization by the row sum, cap at `max_weight`,
second normalization by the new row sum, and `fillna(0.0)`. -/
def compute_inverse_vol_weights_row (maxWeight : ℚ)
    (vols : List (Option ℚ)) : List ℚ :=
  let inv := invVolRow vols
  let w1 := inv.map (Option.map fun x => x / osum inv)
  let w2 := w1.map (Option.map fun x => min x maxWeight)
  let w3 := w2.map (Option.map fun x => x / osum w2)
  w3.map fun o => o.getD 0

/-! ## Phase-2 cost model
Embeds `apply_transaction_costs` and the return assembly of
`finalize_strategy_output`
(`phase_2/scripts/strategies/base/strategy_interface_v1.py`,
lines 11-56). -/

/-- Transaction costs of lines 11-20: turnover is the absolute first
difference of the position series with the leading NaN filled to 0, and
the cost is turnover times `cost_per_side_bps / 10000`. -/
def apply_transaction_costs (position : List ℚ) (costPerSideBps : ℚ) :
    List ℚ :=
  match position with
  | [] => []
  | p :: rest =>
    0 :: List.zipWith (fun a b => |b - a| * (costPerSideBps / 10000))
      (p :: rest) rest

/-- Close-to-close returns `pct_change` of lines 4-9: NaN on the first
row, `price[t] / price[t-1] - 1` after. -/
def pctChange (prices : List ℚ) : List (Option ℚ) :=
  match prices with
  | [] => []
  | p :: rest =>
    none :: List.zipWith (fun a b => some (b / a - 1)) (p :: rest) rest

/-- Return assembly of `finalize_strategy_output` (lines 44-49) on a
date-sorted frame: positions clipped to `[0, 1]`, the applied position
is the previous date's clipped position (`shift(1).fillna(0.0)`), the
gross return multiplies it by the NaN-filled daily return, and
transaction costs on the clipped positions are subtracted. -/
def finalize_strategy_output_raw_ret (position : List ℚ)
    (prices : List ℚ) (costPerSideBps : ℚ) : List ℚ :=
  let clipped := position.map fun p => max 0 (min p 1)
  let ret := (pctChange prices).map fun o => o.getD 0
  let posApplied := 0 :: clipped.dropLast
  let costs := apply_transaction_costs clipped costPerSideBps
  List.zipWith (fun g c => g - c)
    (List.zipWith (fun p r => p * r) posApplied ret) costs

/-- Trend dead zone: a fully defined row whose momentum features lie
strictly between TREND's exit thresholds and its entry thresholds in the
default table (`mom_60` in (-0.02, 0), `mom_20` in (-0.02, -0.005)),
other features arbitrary. -/
def trendDeadZone (r : RegimeRow) : Prop :=
  (∃ x, r.mom60 = some x ∧ -(2/100) < x ∧ x < 0) ∧
  (∃ x, r.mom20 = some x ∧ -(2/100) < x ∧ x < -(5/1000)) ∧
  (∃ x, r.vol20 = some x) ∧ (∃ x, r.dd60 = some x)

/-- Mean-reversion dead zone: a fully defined row whose features lie
strictly between MEANREV's entry thresholds and its exit thresholds in
the default table (`mom_20` in (-0.025, -0.005), `drawdown_60` in
(-0.03, -0.01), `vol_20` in (0.40, 0.45)), `mom_60` arbitrary. -/
def mrDeadZone (r : RegimeRow) : Prop :=
  (∃ x, r.mom60 = some x) ∧
  (∃ x, r.mom20 = some x ∧ -(25/1000) < x ∧ x < -(5/1000)) ∧
  (∃ x, r.vol20 = some x ∧ 40/100 < x ∧ x < 45/100) ∧
  (∃ x, r.dd60 = some x ∧ -(3/100) < x ∧ x < -(1/100))

/-! ## Theorems -/

/-- Any NaN feature forces the hysteretic transition function to CASH,
whatever the previous state and parameters. -/
theorem decide_nan_cash (r : RegimeRow) (prev : RState) (p : HystParams)
    (h : rowHasNaN r) :
    decide_state_hysteresis_v1 r prev p = .CASH := by
  rcases r with ⟨m20, m60, v20, d60⟩
  cases m60 <;> cases m20 <;> cases v20 <;> cases d60 <;>
    simp_all [rowHasNaN, decide_state_hysteresis_v1]

/-- In the state-series fold, a row with a NaN feature yields CASH at
its own index, whatever the starting state. -/
theorem buildStatesFrom_nan (p : HystParams) :
    ∀ (rows : List RegimeRow) (prev : RState) (i : ℕ) (r : RegimeRow),
      rows[i]? = some r → rowHasNaN r →
      (buildStatesFrom p prev rows)[i]? = some .CASH := by
  intro rows
  induction rows with
  | nil => intro prev i r hi; simp at hi
  | cons x rest ih =>
    intro prev i r hi hnan
    cases i with
    | zero =>
      simp only [List.getElem?_cons_zero, Option.some.injEq] at hi
      subst hi
      simp [buildStatesFrom, decide_nan_cash x prev p hnan]
    | succ j =>
      simp only [List.getElem?_cons_succ] at hi
      simpa [buildStatesFrom] using
        ih (decide_state_hysteresis_v1 x prev p) j r hi hnan

/-- In a fold started anywhere, the sequence of states from a NaN row
onward equals the fold of the suffix started fresh from CASH: the NaN
row maps every starting state to CASH. -/
theorem buildStatesFrom_nan_drop (p : HystParams) :
    ∀ (t : ℕ) (rows : List RegimeRow) (prev : RState) (r : RegimeRow),
      rows[t]? = some r → rowHasNaN r →
      (buildStatesFrom p prev rows).drop t =
        buildStatesFrom p .CASH (rows.drop t) := by
  intro t
  induction t with
  | zero =>
    intro rows prev r hi hnan
    cases rows with
    | nil => simp at hi
    | cons x rest =>
      simp only [List.getElem?_cons_zero, Option.some.injEq] at hi
      subst hi
      simp [buildStatesFrom, decide_nan_cash x prev p hnan,
        decide_nan_cash x .CASH p hnan]
  | succ j ih =>
    intro rows prev r hi hnan
    cases rows with
    | nil => simp at hi
    | cons x rest =>
      simp only [List.getElem?_cons_succ] at hi
      simpa [buildStatesFrom] using
        ih rest (decide_state_hysteresis_v1 x prev p) r hi hnan

/-- From TREND, a row in the trend dead zone trips no exit condition and
the transition function stays in TREND. -/
theorem hyst_trend_stay (r : RegimeRow) (h : trendDeadZone r) :
    decide_state_hysteresis_v1 r .TREND DEFAULT_HYST_PARAMS = .TREND := by
  obtain ⟨⟨m60, h60, h60a, h60b⟩, ⟨m20, h20, h20a, h20b⟩,
    ⟨v20, hv⟩, ⟨d60, hd⟩⟩ := h
  rcases r with ⟨a20, a60, av, ad⟩
  simp only at h60 h20 hv hd
  subst h60 h20 hv hd
  simp only [decide_state_hysteresis_v1, DEFAULT_HYST_PARAMS]
  rw [if_neg (by push_neg; constructor <;> linarith)]

/-- From MEANREV, a row in the mean-reversion dead zone trips no exit
condition and the transition function stays in MEANREV. -/
theorem hyst_mr_stay (r : RegimeRow) (h : mrDeadZone r) :
    decide_state_hysteresis_v1 r .MEANREV DEFAULT_HYST_PARAMS
      = .MEANREV := by
  obtain ⟨⟨m60, h60⟩, ⟨m20, h20, h20a, h20b⟩, ⟨v20, hv, hva, hvb⟩,
    ⟨d60, hd, hda, hdb⟩⟩ := h
  rcases r with ⟨a20, a60, av, ad⟩
  simp only at h60 h20 hv hd
  subst h60 h20 hv hd
  simp only [decide_state_hysteresis_v1, DEFAULT_HYST_PARAMS]
  rw [if_neg (by push_neg; refine ⟨by linarith, by linarith, by linarith⟩)]

/-- Running a lifecycle on a prefix of the rows produces exactly the
prefix of the records: the fold consumes rows strictly in order. -/
theorem runLifecycle_take {α : Type} (step : EngState → α → Rec × EngState)
    (rows : List α) : ∀ (st : EngState) (n : ℕ),
    runLifecycle step st (rows.take n) = (runLifecycle step st rows).take n := by
  induction rows with
  | nil => intro st n; simp [runLifecycle]
  | cons r rest ih =>
    intro st n
    cases n with
    | zero => simp [runLifecycle]
    | succ m => simp [runLifecycle, List.take_succ_cons, ih]

/-- C1, corrected.  With the fold-level parameters held fixed (the sized
variant's `threshold` and `pred_std`, the fixed-size variant's
`vol_threshold`), the per-symbol Position Lifecycle loop is
prefix-stable: its records on the prefix of the rows ending at any date
t are exactly the first t+1 records of the run on the full series, so
every decision at or before t — entry and exit firing, position held and
net return — uses only rows at or before t. -/
theorem lifecycle_core_no_lookahead :
    (∀ (ps : WfParams) (rows : List WfRow) (t : ℕ),
      run_strategy_core ps (rows.take (t + 1)) =
        (run_strategy_core ps rows).take (t + 1)) ∧
    (∀ (hold : ℕ) (cost volThr oversold : ℚ) (rows : List MrRow) (t : ℕ),
      run_mean_reversion_core hold cost volThr oversold (rows.take (t + 1)) =
        (run_mean_reversion_core hold cost volThr oversold rows).take (t + 1)) := by
  constructor
  · intro ps rows t
    exact runLifecycle_take (wfStep ps) rows ⟨0, 0⟩ (t + 1)
  · intro hold cost volThr oversold rows t
    exact runLifecycle_take (mrStep hold cost volThr oversold) rows ⟨0, 0⟩ (t + 1)

/-- C1, counterexample to the claim as stated.  For the fixed-size
variant `run_mean_reversion_on_test` (hold_days 3, cost 5 bps, oversold
threshold 0.02, volatility percentile 0.8), on the two-row series with
`rvol_10 = [100, 1]`, `ret_5d = [-0.1, 0]`: on the full series the
`rvol_10` quantile is 80.2, the volatility gate fails at date 0 and no
entry fires (position 0), while after deleting the row after date 0 the
quantile is 100, the gate passes and the engine enters at date 0
(position 1) — deleting rows after t changes the decision at t. -/
theorem run_mean_reversion_on_test_lookahead_cx :
    ((run_mean_reversion_on_test 3 5 (2/100) (8/10)
        [⟨100, -1/10, 0⟩, ⟨1, 0, 0⟩]).map Rec.pos)[0]? = some 0 ∧
    ((run_mean_reversion_on_test 3 5 (2/100) (8/10)
        ([⟨100, -1/10, 0⟩, ⟨1, 0, 0⟩].take 1)).map Rec.pos)[0]? = some 1 ∧
    (0 : ℚ) ≠ 1 := by
  refine ⟨?_, ?_, by norm_num⟩ <;>
    norm_num [run_mean_reversion_on_test, run_mean_reversion_core,
      runLifecycle, mrStep, mrEntryCond, quantileQ, sortAsc, insertAsc,
      show Int.toNat 0 = 0 from rfl]

/-- C3.  Position Lifecycle scenario, fixed-size variant: hold_days 3,
cost 5 bps (rate 0.0005), entry signal true only at day 0 (`ret_5d`
oversold only there, volatility gate always passing), forward returns
`[0.01, 0.02, -0.01, 0.03, 0.00]`: the engine produces positions
`[1, 1, 1, 0, 0]` and net returns
`[0.01 - 0.0005, 0.02, -0.01, 0.00 - 0.0005, 0.00]` — the
post-transition position multiplies the date's forward return, entry
cost is charged the day earning starts, and exit cost alone is charged
on the exit day. -/
theorem mean_reversion_scenario :
    (run_mean_reversion_on_test 3 5 (2/100) (8/10)
        [⟨1, -1/10, 1/100⟩, ⟨1, 0, 2/100⟩, ⟨1, 0, -1/100⟩,
          ⟨1, 0, 3/100⟩, ⟨1, 0, 0⟩]).map Rec.pos = [1, 1, 1, 0, 0] ∧
    (run_mean_reversion_on_test 3 5 (2/100) (8/10)
        [⟨1, -1/10, 1/100⟩, ⟨1, 0, 2/100⟩, ⟨1, 0, -1/100⟩,
          ⟨1, 0, 3/100⟩, ⟨1, 0, 0⟩]).map Rec.net =
      [1/100 - 5/10000, 2/100, -1/100, 0 - 5/10000, 0] := by
  refine ⟨?_, ?_⟩ <;>
    norm_num [run_mean_reversion_on_test, run_mean_reversion_core,
      runLifecycle, mrStep, mrEntryCond, quantileQ, sortAsc, insertAsc,
      show Int.toNat 3 = 3 from rfl]

/-- Records of a lifecycle run split at any cut of the row list, the
second part starting from the accumulated state. -/
theorem runLifecycle_append {α : Type} (step : EngState → α → Rec × EngState)
    (xs ys : List α) : ∀ st : EngState,
    runLifecycle step st (xs ++ ys) =
      runLifecycle step st xs ++
        runLifecycle step (lifecycleState step st xs) ys := by
  induction xs with
  | nil => intro st; simp [runLifecycle, lifecycleState]
  | cons x rest ih => intro st; simp [runLifecycle, lifecycleState, ih]

/-- A lifecycle run emits one record per row. -/
theorem runLifecycle_length {α : Type}
    (step : EngState → α → Rec × EngState) (rows : List α) :
    ∀ st : EngState, (runLifecycle step st rows).length = rows.length := by
  induction rows with
  | nil => intro st; simp [runLifecycle]
  | cons r rest ih => intro st; simp [runLifecycle, ih]

/-- From a held state with at least two days left, the walk-forward step
keeps the position and decrements the counter. -/
theorem wfStep_hold (ps : WfParams) (p : ℚ) (hp : 0 < p) (d : ℕ)
    (hd : 2 ≤ d) (r : WfRow) :
    wfStep ps ⟨p, d⟩ r = ⟨⟨p, p * r.yRet1d⟩, ⟨p, d - 1⟩⟩ := by
  have hp0 : p ≠ 0 := ne_of_gt hp
  simp only [wfStep]
  rw [if_pos (by omega : 0 < d), if_neg (by simp [hp0]),
    if_neg (by simp; omega)]

/-- From a held state with one day left, the walk-forward step exits:
the position is flattened and the exit cost charged. -/
theorem wfStep_exit (ps : WfParams) (p : ℚ) (hp : 0 < p) (r : WfRow) :
    wfStep ps ⟨p, 1⟩ r = ⟨⟨0, 0 * r.yRet1d - p * ps.cost⟩, ⟨0, 0⟩⟩ := by
  have hp0 : p ≠ 0 := ne_of_gt hp
  simp only [wfStep]
  rw [if_pos (by omega : (0:ℕ) < 1), if_neg (by simp [hp0]),
    if_pos (by simp [hp])]

/-- From a flat state, the walk-forward step enters whenever the gate
holds, whatever the leftover counter value. -/
theorem wfStep_entry (ps : WfParams) (r : WfRow) (d0 : ℕ)
    (h : wfEntryCond ps r) :
    wfStep ps ⟨0, d0⟩ r =
      ⟨⟨wfEntrySize ps r,
          wfEntrySize ps r * r.yRet1d - wfEntrySize ps r * ps.cost⟩,
        ⟨wfEntrySize ps r, ps.holdDays⟩⟩ := by
  simp [wfStep, h]

/-- Running the walk-forward engine from a freshly entered state
(position `p > 0`, counter `h`): the recorded position is `p` on the
next `h - 1` rows and exactly 0 on the row after them. -/
theorem wf_hold_run (ps : WfParams) (p : ℚ) (hp : 0 < p) :
    ∀ (h : ℕ) (rows : List WfRow),
    (∀ k, k + 2 ≤ h → k < rows.length →
      ((runLifecycle (wfStep ps) ⟨p, h⟩ rows)[k]?).map Rec.pos = some p) ∧
    (h - 1 < rows.length →
      ((runLifecycle (wfStep ps) ⟨p, h⟩ rows)[h - 1]?).map Rec.pos
        = some 0) := by
  intro h
  induction h with
  | zero =>
    intro rows
    refine ⟨fun k hk => by omega, fun hlen => ?_⟩
    cases rows with
    | nil => simp at hlen
    | cons r rest =>
      have hp0 : p ≠ 0 := ne_of_gt hp
      simp [runLifecycle, wfStep, hp0, hp]
  | succ n ih =>
    intro rows
    cases rows with
    | nil =>
      refine ⟨fun k hk hk2 => by simp at hk2, fun hlen => by simp at hlen⟩
    | cons r rest =>
      rcases Nat.eq_zero_or_pos n with hn | hn
      · subst hn
        refine ⟨fun k hk => by omega, fun hlen => ?_⟩
        simp [runLifecycle, wfStep_exit ps p hp r]
      · obtain ⟨m, hm⟩ : ∃ m, n = m + 1 := ⟨n - 1, by omega⟩
        subst hm
        have hstep := wfStep_hold ps p hp (m + 2) (by omega) r
        constructor
        · intro k hk hklen
          cases k with
          | zero => simp [runLifecycle, hstep]
          | succ j =>
            have := (ih rest).1 j (by omega) (by simpa using hklen)
            simpa [runLifecycle, hstep] using this
        · intro hlen
          have h2' := (ih rest).2 (by simp at hlen ⊢; omega)
          simpa [runLifecycle, hstep] using h2'

/-- Signals consumed by the trend loop split at any cut of the list, the
second part starting from the accumulated `hold_remaining`. -/
theorem trendGo_append (h : ℕ) (xs ys : List Bool) : ∀ rem : ℤ,
    trendGo h rem (xs ++ ys) =
      trendGo h rem xs ++ trendGo h (trendRem h rem xs) ys := by
  induction xs with
  | nil => intro rem; simp [trendGo, trendRem]
  | cons b rest ih =>
    intro rem
    by_cases h1 : 0 < rem
    · simp [trendGo, trendRem, h1, ih]
    · by_cases h2 : b <;> simp [trendGo, trendRem, h1, h2, ih]

/-- The trend loop emits one position per signal. -/
theorem trendGo_length (h : ℕ) (ce : List Bool) :
    ∀ rem : ℤ, (trendGo h rem ce).length = ce.length := by
  induction ce with
  | nil => intro rem; simp [trendGo]
  | cons b rest ih =>
    intro rem
    by_cases h1 : 0 < rem
    · simp [trendGo, h1, ih]
    · by_cases h2 : b <;> simp [trendGo, h1, h2, ih]

/-- While `hold_remaining = m > 0`, the trend loop emits 1 for `m` rows
and then continues from a zero counter on the remaining signals. -/
theorem trendGo_replicate (h : ℕ) :
    ∀ (m : ℕ) (ce : List Bool),
    trendGo h (m : ℤ) ce =
      List.replicate (min m ce.length) 1 ++ trendGo h 0 (ce.drop m) := by
  intro m
  induction m with
  | zero => intro ce; simp
  | succ n ih =>
    intro ce
    cases ce with
    | nil => simp [trendGo]
    | cons b rest =>
      have h1 : (0:ℤ) < ((n + 1 : ℕ) : ℤ) := by positivity
      have h2 : ((n + 1 : ℕ) : ℤ) - 1 = (n : ℤ) := by push_cast; ring
      simp only [trendGo, if_pos h1, h2, ih rest, List.length_cons,
        List.drop_succ_cons]
      rw [show min (n + 1) (rest.length + 1) = min n rest.length + 1 by omega]
      simp [List.replicate_succ]

/-- C4, counterexample to the claim as stated.  In
`generate_trend_positions` with hold_days 2 and the entry signal true on
every date, the engine enters at date 0, but at date t + hold_days = 2
the position is 1, not 0: the variant re-checks the entry signal at
t + hold_days and re-enters immediately. -/
theorem trend_positions_reentry_cx :
    generate_trend_positions 2 [true, true, true] = [1, 1, 1] ∧
    (generate_trend_positions 2 [true, true, true])[2]? = some 1 ∧
    (1 : ℚ) ≠ 0 := by
  refine ⟨by decide, by decide, by decide⟩

/-- C4, amended.  Holding-period invariant.  (a) Walk-forward engine:
whenever the engine is flat before date t and the entry gate holds at t
with a positive entry size, the recorded position equals the entry size
on dates t..t+h-1 (whatever the signals on those dates) and is exactly 0
at date t+h, so no re-entry occurs while the counter runs and entry and
exit never fire on the same date.  (b) `generate_trend_positions`: after
an entry at t the position is 1 on dates t..t+h-1, but at date t+h the
loop re-checks the entry signal: the position at t+h is 1 when the
signal holds there (immediate re-entry) and 0 only otherwise. -/
theorem holding_period_invariant :
    (∀ (ps : WfParams) (rows : List WfRow) (t : ℕ) (r : WfRow),
      1 ≤ ps.holdDays →
      (lifecycleState (wfStep ps) ⟨0, 0⟩ (rows.take t)).position = 0 →
      rows[t]? = some r →
      wfEntryCond ps r →
      0 < wfEntrySize ps r →
      ((run_strategy_core ps rows)[t]?).map Rec.pos
          = some (wfEntrySize ps r) ∧
      (∀ k, 1 ≤ k → k + 1 ≤ ps.holdDays → t + k < rows.length →
        ((run_strategy_core ps rows)[t + k]?).map Rec.pos
          = some (wfEntrySize ps r)) ∧
      (t + ps.holdDays < rows.length →
        ((run_strategy_core ps rows)[t + ps.holdDays]?).map Rec.pos
          = some 0)) ∧
    (∀ (h : ℕ) (ce : List Bool) (t : ℕ),
      1 ≤ h →
      trendRem h 0 (ce.take t) ≤ 0 →
      ce[t]? = some true →
      (∀ k, k < h → t + k < ce.length →
        (generate_trend_positions h ce)[t + k]? = some 1) ∧
      (∀ b, ce[t + h]? = some b →
        (generate_trend_positions h ce)[t + h]? =
          some (if b then 1 else 0))) := by
  constructor
  · intro ps rows t r hh hflat hrt hentry hsz
    obtain ⟨htlen, hr⟩ := List.getElem?_eq_some.mp hrt
    have hsplit : rows = rows.take t ++ (r :: rows.drop (t + 1)) := by
      conv_lhs => rw [← List.take_append_drop t rows]
      rw [List.drop_eq_getElem_cons htlen, hr]
    have hst0 : lifecycleState (wfStep ps) ⟨0, 0⟩ (rows.take t) =
        ⟨0, (lifecycleState (wfStep ps) ⟨0, 0⟩ (rows.take t)).daysLeft⟩ := by
      cases hst : lifecycleState (wfStep ps) ⟨0, 0⟩ (rows.take t) with
      | mk a b => rw [hst] at hflat; simpa using hflat
    have hrun : run_strategy_core ps rows =
        runLifecycle (wfStep ps) ⟨0, 0⟩ (rows.take t) ++
          (⟨wfEntrySize ps r,
              wfEntrySize ps r * r.yRet1d - wfEntrySize ps r * ps.cost⟩ ::
            runLifecycle (wfStep ps) ⟨wfEntrySize ps r, ps.holdDays⟩
              (rows.drop (t + 1))) := by
      rw [run_strategy_core]
      conv_lhs => rw [hsplit]
      rw [runLifecycle_append]
      congr 1
      rw [runLifecycle, hst0,
        wfStep_entry ps r _ hentry]
    have hlen1 : (runLifecycle (wfStep ps) ⟨0, 0⟩ (rows.take t)).length = t := by
      rw [runLifecycle_length, List.length_take]
      omega
    refine ⟨?_, ?_, ?_⟩
    · rw [hrun, List.getElem?_append_right (by omega), hlen1]
      simp
    · intro k hk1 hkh hklen
      obtain ⟨j, hj⟩ : ∃ j, k = j + 1 := ⟨k - 1, by omega⟩
      rw [hrun, List.getElem?_append_right (by omega), hlen1,
        show t + k - t = j + 1 by omega, List.getElem?_cons_succ]
      exact (wf_hold_run ps (wfEntrySize ps r) hsz ps.holdDays
        (rows.drop (t + 1))).1 j (by omega)
        (by rw [List.length_drop]; omega)
    · intro hlen
      rw [hrun, List.getElem?_append_right (by omega), hlen1,
        show t + ps.holdDays - t = ps.holdDays by omega]
      obtain ⟨m, hm⟩ : ∃ m, ps.holdDays = m + 1 := ⟨ps.holdDays - 1, by omega⟩
      rw [hm, List.getElem?_cons_succ]
      have := (wf_hold_run ps (wfEntrySize ps r) hsz ps.holdDays
        (rows.drop (t + 1))).2 (by rw [List.length_drop]; omega)
      rw [hm, show m + 1 - 1 = m by omega] at this
      exact this
  · intro h ce t hh hrem hct
    obtain ⟨m, rfl⟩ : ∃ m, h = m + 1 := ⟨h - 1, by omega⟩
    obtain ⟨htlen, hctrue⟩ := List.getElem?_eq_some.mp hct
    have hsplit : ce = ce.take t ++ (true :: ce.drop (t + 1)) := by
      conv_lhs => rw [← List.take_append_drop t ce]
      rw [List.drop_eq_getElem_cons htlen, hctrue]
    have hcast : ((m + 1 : ℕ) : ℤ) - 1 = ((m : ℕ) : ℤ) := by push_cast; ring
    have hgo : generate_trend_positions (m + 1) ce =
        trendGo (m + 1) 0 (ce.take t) ++
          (1 :: (List.replicate (min m (ce.drop (t + 1)).length) 1 ++
            trendGo (m + 1) 0 ((ce.drop (t + 1)).drop m))) := by
      rw [generate_trend_positions]
      conv_lhs => rw [hsplit]
      rw [trendGo_append]
      congr 1
      rw [trendGo]
      rw [if_neg (by omega), if_pos rfl, hcast, trendGo_replicate]
    have hlen1 : (trendGo (m + 1) 0 (ce.take t)).length = t := by
      rw [trendGo_length, List.length_take]
      omega
    constructor
    · intro k hkh hklen
      rw [hgo, List.getElem?_append_right (by omega), hlen1,
        show t + k - t = k by omega]
      cases k with
      | zero => simp
      | succ j =>
        rw [List.getElem?_cons_succ, List.getElem?_append]
        rw [if_pos (by
          rw [List.length_replicate, List.length_drop]; omega)]
        rw [List.getElem?_replicate,
          if_pos (by rw [List.length_drop]; omega)]
    · intro b hb
      obtain ⟨hthlen, hbval⟩ := List.getElem?_eq_some.mp hb
      have hmin : min m (ce.drop (t + 1)).length = m := by
        rw [List.length_drop]; omega
      rw [hgo, List.getElem?_append_right (by omega), hlen1,
        show t + (m + 1) - t = m + 1 by omega, List.getElem?_cons_succ,
        List.getElem?_append_right (by rw [List.length_replicate, hmin]),
        List.length_replicate, hmin, Nat.sub_self]
      rw [List.drop_drop,
        show t + 1 + m = t + (m + 1) by omega,
        List.drop_eq_getElem_cons hthlen, hbval]
      cases b <;> simp [trendGo]

/-- Indexing a zipWith at a position where both lists are defined. -/
theorem zipWith_getElem?_eq {α β γ : Type} (f : α → β → γ) :
    ∀ (as : List α) (bs : List β) (i : ℕ) (a : α) (b : β),
      as[i]? = some a → bs[i]? = some b →
      (List.zipWith f as bs)[i]? = some (f a b) := by
  intro as
  induction as with
  | nil => intro bs i a b ha; simp at ha
  | cons x rest ih =>
    intro bs i a b ha hb
    cases bs with
    | nil => simp at hb
    | cons y rbs =>
      cases i with
      | zero => simp_all
      | succ j => simp_all [ih]

/-- C2, counterexample to the claim as stated.  With lookback 2,
max_leverage 1, annual target 0.1, the all-zero return series [0, 0, 0]
has a full window of zero realized volatility at index 1, and
`apply_vol_targeting` assigns leverage 1 = max_leverage there (the
division by a zero standard deviation produces +inf, which the clip caps
at max_leverage and `fillna` does not touch), not the claimed 0. -/
theorem apply_vol_targeting_zero_vol_cx :
    (apply_vol_targeting_lev (1/10) 2 1 [0, 0, 0])[1]? = some 1 ∧
    (1 : ℝ) ≠ 0 := by
  constructor
  · have h1 : rollingVar 2 [0, 0, 0] = [none, some 0, some 0] := by
      norm_num [rollingVar, sampleVar, List.range_succ]
    simp [apply_vol_targeting_lev, h1, levRatio, clipFill]
  · norm_num

/-- C2, amended.  Risk-targeting degenerate inputs: while the trailing
window is not yet full the leverage is exactly 0 (and the output return
is 0); on a window of exactly zero realized volatility the leverage is
`max_leverage` (the clipped infinity), not 0 and not an undefined
value; and every leverage value lies in `[0, max_leverage]`. -/
theorem apply_vol_targeting_degenerate
    (tv : ℝ) (lookback : ℕ) (maxLev : ℝ) (raw : List ℚ) (i : ℕ)
    (htv : 0 < tv) (hlb : 2 ≤ lookback) (hml : 0 ≤ maxLev) :
    (i + 1 < lookback → i < raw.length →
      (apply_vol_targeting_lev tv lookback maxLev raw)[i]? = some 0) ∧
    ((rollingVar lookback raw)[i]? = some (some 0) →
      (apply_vol_targeting_lev tv lookback maxLev raw)[i]? = some maxLev) ∧
    (∀ x, (apply_vol_targeting_lev tv lookback maxLev raw)[i]? = some x →
      0 ≤ x ∧ x ≤ maxLev) ∧
    (i + 1 < lookback → i < raw.length →
      (apply_vol_targeting_meta tv lookback maxLev raw)[i]? = some 0) := by
  have hvar : ∀ (hi : i < raw.length), i + 1 < lookback →
      (rollingVar lookback raw)[i]? = some none := by
    intro hi hwarm
    rw [rollingVar, List.getElem?_map, List.getElem?_range hi]
    simp only [Option.map_some']
    rw [if_neg (by omega)]
  have hlev0 : i + 1 < lookback → i < raw.length →
      (apply_vol_targeting_lev tv lookback maxLev raw)[i]? = some 0 := by
    intro hwarm hi
    rw [apply_vol_targeting_lev, List.getElem?_map, hvar hi hwarm]
    simp [levRatio, clipFill]
  refine ⟨hlev0, ?_, ?_, ?_⟩
  · intro hz
    rw [apply_vol_targeting_lev, List.getElem?_map, hz]
    simp [levRatio, clipFill]
  · intro x hx
    rw [apply_vol_targeting_lev, List.getElem?_map] at hx
    cases ho : (rollingVar lookback raw)[i]? with
    | none => rw [ho] at hx; simp at hx
    | some o =>
      rw [ho] at hx
      simp only [Option.map_some', Option.some.injEq] at hx
      subst hx
      cases o with
      | none => simp [levRatio, clipFill, hml]
      | some v =>
        by_cases hv : v = 0
        · simp [levRatio, clipFill, hv, hml]
        · simp only [levRatio, clipFill, if_neg hv]
          constructor
          · exact le_max_left 0 _
          · exact max_le hml (min_le_right _ _)
  · intro hwarm hi
    rw [apply_vol_targeting_meta,
      zipWith_getElem?_eq _ raw _ i _ _ (List.getElem?_eq_getElem hi)
        (hlev0 hwarm hi)]
    simp

/-- Witness for risk-targeting degenerate inputs: at index 0 of
[0, 0, 0] with lookback 2 the window is not full and leverage is 0. -/
theorem apply_vol_targeting_degenerate_witness :
    (apply_vol_targeting_lev (1/10) 2 1 [0, 0, 0])[0]? = some 0 := by
  exact (apply_vol_targeting_degenerate (1/10) 2 1 [0, 0, 0] 0
    (by norm_num) (by norm_num) (by norm_num)).1 (by norm_num) (by norm_num)

/-- NaN-skipping row sums of entrywise nonnegative rows are
nonnegative. -/
theorem osum_nonneg : ∀ l : List (Option ℚ),
    (∀ o ∈ l, ∀ x, o = some x → 0 ≤ x) → 0 ≤ osum l := by
  intro l
  induction l with
  | nil => intro _; simp [osum]
  | cons o rest ih =>
    intro h
    have h1 : 0 ≤ o.getD 0 := by
      cases o with
      | none => simp
      | some v => simpa using h (some v) (List.mem_cons_self _ _) v rfl
    have h2 := ih fun o ho x hx => h o (List.mem_cons_of_mem _ ho) x hx
    simp only [osum, List.map_cons, List.sum_cons]
    exact add_nonneg h1 h2

/-- A NaN-skipping row sum with one positive defined entry and no
negative defined entry is positive. -/
theorem osum_pos : ∀ l : List (Option ℚ),
    (∀ o ∈ l, ∀ x, o = some x → 0 ≤ x) →
    ∀ x : ℚ, some x ∈ l → 0 < x → 0 < osum l := by
  intro l
  induction l with
  | nil => intro _ x hx; simp at hx
  | cons o rest ih =>
    intro h x hx hxp
    have hrest : ∀ o ∈ rest, ∀ y, o = some y → 0 ≤ y :=
      fun o ho y hy => h o (List.mem_cons_of_mem _ ho) y hy
    rcases List.mem_cons.mp hx with hx0 | hxr
    · subst hx0
      simp only [osum, List.map_cons, List.sum_cons, Option.getD_some]
      have hnn2 := osum_nonneg rest hrest
      simp only [osum] at hnn2
      linarith
    · have h1 : 0 ≤ o.getD 0 := by
        cases o with
        | none => simp
        | some v => simpa using h (some v) (List.mem_cons_self _ _) v rfl
      have h2 := ih hrest x hxr hxp
      simp only [osum] at h2
      simp only [osum, List.map_cons, List.sum_cons]
      linarith

/-- Dividing every defined entry of a row by a constant divides the
NaN-skipping row sum by that constant. -/
theorem osum_map_div : ∀ (l : List (Option ℚ)) (c : ℚ),
    osum (l.map (Option.map fun x => x / c)) = osum l / c := by
  intro l c
  induction l with
  | nil => simp [osum]
  | cons o rest ih =>
    cases o with
    | none =>
      simp only [osum, List.map_cons, List.sum_cons, Option.map_none',
        Option.getD_none] at ih ⊢
      rw [ih, add_div, zero_div]
    | some v =>
      simp only [osum, List.map_cons, List.sum_cons, Option.map_some',
        Option.getD_some] at ih ⊢
      rw [ih, add_div]

/-- C6.  Portfolio weight renormalization: whenever at least one asset
has a defined non-zero rolling volatility that date (volatilities being
nonnegative, as standard deviations are) and the cap is positive, the
weights produced for that date are all nonnegative and sum to exactly 1,
and every asset whose volatility is undefined or zero receives weight
exactly 0. -/
theorem inverse_vol_weights_renormalization
    (vols : List (Option ℚ)) (maxWeight : ℚ)
    (hnn : ∀ o ∈ vols, ∀ x, o = some x → 0 ≤ x)
    (hex : ∃ x, some x ∈ vols ∧ x ≠ 0)
    (hmw : 0 < maxWeight) :
    (∀ w ∈ compute_inverse_vol_weights_row maxWeight vols, 0 ≤ w) ∧
    (compute_inverse_vol_weights_row maxWeight vols).sum = 1 ∧
    (∀ i : ℕ, vols[i]? = some none ∨ vols[i]? = some (some 0) →
      (compute_inverse_vol_weights_row maxWeight vols)[i]? = some 0) := by
  obtain ⟨x0, hx0mem, hx0ne⟩ := hex
  have hx0pos : 0 < x0 := lt_of_le_of_ne (hnn (some x0) hx0mem x0 rfl)
    (Ne.symm hx0ne)
  have hinvpos : ∀ o ∈ invVolRow vols, ∀ x, o = some x → 0 < x := by
    intro o ho x hx
    rw [invVolRow, List.mem_map] at ho
    obtain ⟨v, hv, hfv⟩ := ho
    cases v with
    | none => rw [← hfv, Option.none_bind] at hx; simp at hx
    | some q =>
      rw [← hfv, Option.some_bind] at hx
      by_cases hq : q = 0
      · rw [if_pos hq] at hx; simp at hx
      · rw [if_neg hq] at hx
        simp only [Option.some.injEq] at hx
        subst hx
        have hq0 : 0 ≤ q := hnn (some q) hv q rfl
        have : 0 < q := lt_of_le_of_ne hq0 (Ne.symm hq)
        positivity
  have hinvmem : some (1 / x0) ∈ invVolRow vols := by
    rw [invVolRow, List.mem_map]
    exact ⟨some x0, hx0mem, by rw [Option.some_bind, if_neg hx0ne]⟩
  have hS : 0 < osum (invVolRow vols) :=
    osum_pos (invVolRow vols)
      (fun o ho x hx => le_of_lt (hinvpos o ho x hx))
      (1 / x0) hinvmem (by positivity)
  have hw1pos : ∀ o ∈ (invVolRow vols).map
      (Option.map fun x => x / osum (invVolRow vols)),
      ∀ x, o = some x → 0 < x := by
    intro o ho x hx
    rw [List.mem_map] at ho
    obtain ⟨v, hv, hfv⟩ := ho
    cases v with
    | none => rw [← hfv] at hx; simp at hx
    | some q =>
      rw [← hfv] at hx
      simp only [Option.map_some', Option.some.injEq] at hx
      subst hx
      exact div_pos (hinvpos (some q) hv q rfl) hS
  have hw1mem : some (1 / x0 / osum (invVolRow vols)) ∈
      (invVolRow vols).map
        (Option.map fun x => x / osum (invVolRow vols)) :=
    List.mem_map.mpr ⟨some (1 / x0), hinvmem, rfl⟩
  have hw2pos : ∀ o ∈ ((invVolRow vols).map
        (Option.map fun x => x / osum (invVolRow vols))).map
        (Option.map fun x => min x maxWeight),
      ∀ x, o = some x → 0 < x := by
    intro o ho x hx
    rw [List.mem_map] at ho
    obtain ⟨v, hv, hfv⟩ := ho
    cases v with
    | none => rw [← hfv] at hx; simp at hx
    | some q =>
      rw [← hfv] at hx
      simp only [Option.map_some', Option.some.injEq] at hx
      subst hx
      exact lt_min (hw1pos (some q) hv q rfl) hmw
  have hw2mem : some (min (1 / x0 / osum (invVolRow vols)) maxWeight) ∈
      ((invVolRow vols).map
        (Option.map fun x => x / osum (invVolRow vols))).map
        (Option.map fun x => min x maxWeight) :=
    List.mem_map.mpr ⟨some (1 / x0 / osum (invVolRow vols)), hw1mem, rfl⟩
  have hS2 : 0 < osum (((invVolRow vols).map
      (Option.map fun x => x / osum (invVolRow vols))).map
      (Option.map fun x => min x maxWeight)) :=
    osum_pos _ (fun o ho x hx => le_of_lt (hw2pos o ho x hx)) _ hw2mem
      (lt_min (div_pos (by positivity) hS) hmw)
  refine ⟨?_, ?_, ?_⟩
  · intro w hw
    simp only [compute_inverse_vol_weights_row] at hw
    obtain ⟨o, ho, hgo⟩ := List.mem_map.mp hw
    obtain ⟨v, hv, hfv⟩ := List.mem_map.mp ho
    cases v with
    | none =>
      rw [← hfv] at hgo
      simp only [Option.map_none', Option.getD_none] at hgo
      exact le_of_eq hgo
    | some q =>
      rw [← hfv] at hgo
      simp only [Option.map_some', Option.getD_some] at hgo
      rw [← hgo]
      exact le_of_lt (div_pos (hw2pos (some q) hv q rfl) hS2)
  · have hcomp : compute_inverse_vol_weights_row maxWeight vols =
        ((((invVolRow vols).map
            (Option.map fun x => x / osum (invVolRow vols))).map
          (Option.map fun x => min x maxWeight)).map
          (Option.map fun x => x / osum (((invVolRow vols).map
              (Option.map fun x => x / osum (invVolRow vols))).map
            (Option.map fun x => min x maxWeight)))).map
          (fun o => o.getD 0) := rfl
    rw [hcomp]
    show osum _ = 1
    rw [osum_map_div]
    exact div_self (ne_of_gt hS2)
  · intro i hvi
    have hinvnone : (invVolRow vols)[i]? = some none := by
      rw [invVolRow, List.getElem?_map]
      rcases hvi with hvi | hvi
      · rw [hvi]; rfl
      · rw [hvi]
        simp
    simp only [compute_inverse_vol_weights_row, List.getElem?_map,
      hinvnone]
    rfl

/-- Witness for portfolio weight renormalization: one defined unit-vol
asset and one NaN asset produce weights [1, 0] summing to 1, the NaN
asset getting exactly 0. -/
theorem inverse_vol_weights_renormalization_witness :
    (compute_inverse_vol_weights_row (7/10) [some 1, none]).sum = 1 ∧
    (compute_inverse_vol_weights_row (7/10) [some 1, none])[1]? = some 0 := by
  have hnn : ∀ o ∈ [some (1:ℚ), none], ∀ x, o = some x → 0 ≤ x := by
    intro o ho x hx
    subst hx
    simp at ho
    subst ho
    norm_num
  refine ⟨(inverse_vol_weights_renormalization [some 1, none] (7/10) hnn
      ⟨1, by simp, by norm_num⟩ (by norm_num)).2.1,
    (inverse_vol_weights_renormalization [some 1, none] (7/10) hnn
      ⟨1, by simp, by norm_num⟩ (by norm_num)).2.2 1 (Or.inl rfl)⟩

/-- A round trip of the phase-2 cost model shrinks by one leading
holding day without changing the total cost: consecutive equal
positions have zero turnover. -/
theorem apply_costs_cons_cons (p : ℚ) (tl : List ℚ) (bps : ℚ) :
    (apply_transaction_costs (p :: p :: tl) bps).sum =
      (apply_transaction_costs (p :: tl) bps).sum := by
  simp [apply_transaction_costs, sub_self, abs_zero]

/-- A flat tail after the exit incurs no further cost. -/
theorem zipWith_cost_zeros (r : ℚ) : ∀ m : ℕ,
    List.zipWith (fun a b => |b - a| * r) (0 :: List.replicate m (0:ℚ))
      (List.replicate m (0:ℚ)) = List.replicate m 0 := by
  intro m
  induction m with
  | zero => simp
  | succ k ih => simpa [List.replicate_succ] using ih

/-- C10.  First-row entries are cost-free in the phase-2 cost model:
the first date's turnover is defined as 0, so the cost series always
starts with 0 and the first raw return of `finalize_strategy_output` is
0 whatever the first position; a round trip whose entry is the very
first row is charged `p * cost_rate` in total (the exit side only),
while an entry on any later row is charged `p * cost_rate` on the entry
date as usual. -/
theorem first_row_costless :
    (∀ (pos : List ℚ) (bps : ℚ), pos ≠ [] →
      (apply_transaction_costs pos bps)[0]? = some 0) ∧
    (∀ (p bps : ℚ) (k m : ℕ), 0 ≤ p → 1 ≤ k → 1 ≤ m →
      (apply_transaction_costs
        (List.replicate k p ++ List.replicate m 0) bps).sum =
        p * (bps / 10000)) ∧
    (∀ (pos : List ℚ) (bps p : ℚ) (r : ℕ), 0 ≤ p →
      pos[r]? = some 0 → pos[r + 1]? = some p →
      (apply_transaction_costs pos bps)[r + 1]? =
        some (p * (bps / 10000))) ∧
    (∀ (posl prices : List ℚ) (bps : ℚ), posl ≠ [] → prices ≠ [] →
      (finalize_strategy_output_raw_ret posl prices bps)[0]? = some 0) := by
  refine ⟨?_, ?_, ?_, ?_⟩
  · intro pos bps hne
    cases pos with
    | nil => exact absurd rfl hne
    | cons q rest => simp [apply_transaction_costs]
  · intro p bps k m hp hk hm
    obtain ⟨j, rfl⟩ : ∃ j, k = j + 1 := ⟨k - 1, by omega⟩
    clear hk
    induction j with
    | zero =>
      obtain ⟨i, rfl⟩ : ∃ i, m = i + 1 := ⟨m - 1, by omega⟩
      have hz := zipWith_cost_zeros (bps / 10000) i
      simp only [List.replicate_succ, List.replicate_zero,
        List.nil_append, List.singleton_append, apply_transaction_costs,
        List.zipWith_cons_cons, hz]
      simp [abs_of_nonneg hp, List.sum_replicate]
    | succ i ihj =>
      have h1 : List.replicate (i + 1 + 1) p ++ List.replicate m 0 =
          p :: p :: (List.replicate i p ++ List.replicate m 0) := by
        simp [List.replicate_succ]
      have h2 : p :: (List.replicate i p ++ List.replicate m 0) =
          List.replicate (i + 1) p ++ List.replicate m 0 := by
        simp [List.replicate_succ]
      rw [h1, apply_costs_cons_cons, h2]
      exact ihj
  · intro pos bps p r hp h0 h1
    cases pos with
    | nil => simp at h0
    | cons q rest =>
      have hr : rest[r]? = some p := by
        rw [← List.getElem?_cons_succ (a := q)]
        exact h1
      simp only [apply_transaction_costs, List.getElem?_cons_succ]
      rw [zipWith_getElem?_eq _ (q :: rest) rest r 0 p h0 hr,
        sub_zero, abs_of_nonneg hp]
  · intro posl prices bps hpos hpr
    cases posl with
    | nil => exact absurd rfl hpos
    | cons p0 ptl =>
      cases prices with
      | nil => exact absurd rfl hpr
      | cons q0 qtl =>
        simp [finalize_strategy_output_raw_ret, pctChange,
          apply_transaction_costs]

/-- Witness for the cost model: concrete first-row, round-trip and
later-entry charges. -/
theorem first_row_costless_witness :
    (apply_transaction_costs [1, 0] 5)[0]? = some 0 ∧
    (apply_transaction_costs
      (List.replicate 1 (1:ℚ) ++ List.replicate 1 0) 5).sum =
      1 * (5 / 10000) ∧
    (apply_transaction_costs [0, 1] 5)[0 + 1]? = some (1 * (5 / 10000)) ∧
    (finalize_strategy_output_raw_ret [1] [100] 5)[0]? = some 0 := by
  refine ⟨first_row_costless.1 [1, 0] 5 (by simp),
    first_row_costless.2.1 1 5 1 1 (by norm_num) (by norm_num) (by norm_num),
    first_row_costless.2.2.1 [0, 1] 5 1 0 (by norm_num) rfl rfl,
    first_row_costless.2.2.2 [1] [100] 5 (by simp) (by simp)⟩

/-- C5.  Hysteresis dead zone: with the default parameter table, from
TREND any fully defined row with features strictly between TREND's exit
and entry thresholds leaves the state TREND, from MEANREV any fully
defined row strictly between MEANREV's entry and exit thresholds leaves
the state MEANREV, and a whole sequence of such rows — in particular
one oscillating inside the band — never causes a state transition. -/
theorem hysteresis_dead_zone :
    (∀ r : RegimeRow, trendDeadZone r →
      decide_state_hysteresis_v1 r .TREND DEFAULT_HYST_PARAMS = .TREND) ∧
    (∀ r : RegimeRow, mrDeadZone r →
      decide_state_hysteresis_v1 r .MEANREV DEFAULT_HYST_PARAMS
        = .MEANREV) ∧
    (∀ rows : List RegimeRow, (∀ r ∈ rows, trendDeadZone r) →
      buildStatesFrom DEFAULT_HYST_PARAMS .TREND rows =
        List.replicate rows.length .TREND) ∧
    (∀ rows : List RegimeRow, (∀ r ∈ rows, mrDeadZone r) →
      buildStatesFrom DEFAULT_HYST_PARAMS .MEANREV rows =
        List.replicate rows.length .MEANREV) := by
  refine ⟨hyst_trend_stay, hyst_mr_stay, ?_, ?_⟩
  · intro rows hball
    induction rows with
    | nil => simp [buildStatesFrom]
    | cons x rest ih =>
      have hx := hyst_trend_stay x (hball x (List.mem_cons_self x rest))
      simp [buildStatesFrom, hx, List.replicate_succ,
        ih fun r hr => hball r (List.mem_cons_of_mem x hr)]
  · intro rows hball
    induction rows with
    | nil => simp [buildStatesFrom]
    | cons x rest ih =>
      have hx := hyst_mr_stay x (hball x (List.mem_cons_self x rest))
      simp [buildStatesFrom, hx, List.replicate_succ,
        ih fun r hr => hball r (List.mem_cons_of_mem x hr)]

/-- Witness for the hysteresis dead zone: concrete in-band rows keep
TREND and MEANREV unchanged. -/
theorem hysteresis_dead_zone_witness :
    decide_state_hysteresis_v1 ⟨some (-1/100), some (-1/100), some 0, some 0⟩
      .TREND DEFAULT_HYST_PARAMS = .TREND ∧
    decide_state_hysteresis_v1
      ⟨some (-1/100), some 0, some (42/100), some (-2/100)⟩
      .MEANREV DEFAULT_HYST_PARAMS = .MEANREV := by
  constructor
  · exact hysteresis_dead_zone.1 _
      ⟨⟨-1/100, rfl, by norm_num, by norm_num⟩,
        ⟨-1/100, rfl, by norm_num, by norm_num⟩, ⟨0, rfl⟩, ⟨0, rfl⟩⟩
  · exact hysteresis_dead_zone.2.1 _
      ⟨⟨0, rfl⟩, ⟨-1/100, rfl, by norm_num, by norm_num⟩,
        ⟨42/100, rfl, by norm_num, by norm_num⟩,
        ⟨-2/100, rfl, by norm_num, by norm_num⟩⟩

/-- C8.  Undefined-feature forcing: a row with any NaN among `mom_20`,
`mom_60`, `vol_20`, `drawdown_60` makes the classifier return CASH
unconditionally, for every previous state and parameter table; hence in
the built state series every NaN row's index carries CASH — in
particular a series whose first 60 rows are all-NaN yields CASH on all
of them. -/
theorem nan_forces_cash :
    (∀ (r : RegimeRow) (prev : RState) (p : HystParams), rowHasNaN r →
      decide_state_hysteresis_v1 r prev p = .CASH) ∧
    (∀ (rows : List RegimeRow) (p : HystParams) (i : ℕ) (r : RegimeRow),
      rows[i]? = some r → rowHasNaN r →
      (build_state_series_hysteresis_v1 rows p)[i]? = some .CASH) := by
  refine ⟨fun r prev p h => decide_nan_cash r prev p h, ?_⟩
  intro rows p i r hi hnan
  exact buildStatesFrom_nan p rows .CASH i r hi hnan

/-- Witness for NaN forcing: a concrete NaN row returns CASH from TREND
and an all-NaN series carries CASH at index 0. -/
theorem nan_forces_cash_witness :
    decide_state_hysteresis_v1 ⟨none, some 1, some 1, some 1⟩ .TREND
      DEFAULT_HYST_PARAMS = .CASH ∧
    (build_state_series_hysteresis_v1 [⟨none, none, none, none⟩]
      DEFAULT_HYST_PARAMS)[0]? = some .CASH := by
  constructor
  · exact nan_forces_cash.1 _ .TREND _ (Or.inr (Or.inl rfl))
  · exact nan_forces_cash.2 _ _ 0 ⟨none, none, none, none⟩ rfl (Or.inl rfl)

/-- C9.  A single NaN row erases the regime memory: if row t has any
undefined required feature, the state series from index t onward equals
the series obtained by running the classifier on the suffix starting at
t alone with initial state CASH — a regime held before the gap must
re-qualify through its full entry condition. -/
theorem nan_gap_resets_state :
    ∀ (rows : List RegimeRow) (p : HystParams) (t : ℕ) (r : RegimeRow),
      rows[t]? = some r → rowHasNaN r →
      (build_state_series_hysteresis_v1 rows p).drop t =
        build_state_series_hysteresis_v1 (rows.drop t) p := by
  intro rows p t r hi hnan
  exact buildStatesFrom_nan_drop p t rows .CASH r hi hnan

/-- Witness for the gap reset: a concrete two-row series with a NaN
second row, cut at index 1. -/
theorem nan_gap_resets_state_witness :
    (build_state_series_hysteresis_v1
        [⟨some 1, some 1, some 1, some 1⟩, ⟨none, none, none, none⟩]
        DEFAULT_HYST_PARAMS).drop 1 =
      build_state_series_hysteresis_v1
        ([⟨some 1, some 1, some 1, some 1⟩,
          ⟨none, none, none, none⟩].drop 1) DEFAULT_HYST_PARAMS := by
  exact nan_gap_resets_state _ _ 1 ⟨none, none, none, none⟩ rfl (Or.inl rfl)

/-- The logistic gate takes values strictly between 0 and 1. -/
theorem sigmoid_pos (x k : ℝ) : 0 < sigmoid x k := by
  have h := Real.exp_pos (-k * x)
  rw [sigmoid]
  positivity

/-- The logistic gate is strictly below 1. -/
theorem sigmoid_lt_one (x k : ℝ) : sigmoid x k < 1 := by
  have h := Real.exp_pos (-k * x)
  rw [sigmoid, div_lt_one (by linarith)]
  linarith

/-- The logistic gate at 0 is exactly one half. -/
theorem sigmoid_zero (k : ℝ) : sigmoid 0 k = 1/2 := by
  rw [sigmoid, mul_zero, Real.exp_zero]
  norm_num

/-- The trend confidence score lies strictly between 0 and 1. -/
theorem trend_score_bounds (a b : ℝ) :
    0 < trend_score a b ∧ trend_score a b < 1 := by
  have h1 := sigmoid_pos a 8
  have h2 := sigmoid_pos b 8
  have h3 := sigmoid_lt_one a 8
  have h4 := sigmoid_lt_one b 8
  constructor
  · exact mul_pos h1 h2
  · calc sigmoid a 8 * sigmoid b 8 ≤ sigmoid a 8 * 1 :=
          mul_le_mul_of_nonneg_left (le_of_lt h4) (le_of_lt h1)
    _ = sigmoid a 8 := mul_one _
    _ < 1 := h3

/-- The mean-reversion confidence score lies strictly between 0
and 1. -/
theorem meanrev_score_bounds (a b c : ℝ) :
    0 < meanrev_score a b c ∧ meanrev_score a b c < 1 := by
  have h1 := sigmoid_pos (-a) 8
  have h2 := sigmoid_pos (-b) 8
  have h3 := sigmoid_pos (40/100 - c) 12
  have h4 := sigmoid_lt_one (-a) 8
  have h5 := sigmoid_lt_one (-b) 8
  have h6 := sigmoid_lt_one (40/100 - c) 12
  constructor
  · exact mul_pos (mul_pos h1 h2) h3
  · calc sigmoid (-a) 8 * sigmoid (-b) 8 * sigmoid (40/100 - c) 12
        ≤ sigmoid (-a) 8 * sigmoid (-b) 8 * 1 :=
          mul_le_mul_of_nonneg_left (le_of_lt h6)
            (le_of_lt (mul_pos h1 h2))
    _ = sigmoid (-a) 8 * sigmoid (-b) 8 := mul_one _
    _ ≤ sigmoid (-a) 8 * 1 :=
          mul_le_mul_of_nonneg_left (le_of_lt h5) (le_of_lt h1)
    _ = sigmoid (-a) 8 := mul_one _
    _ < 1 := h4

/-- The cash score is positive whenever the two strategy scores are
below 1. -/
theorem cash_score_pos (t m v : ℝ) (ht : t < 1) (hm : m < 1) :
    0 < cash_score t m v := by
  have h1 := sigmoid_pos (v - 35/100) 10
  have h2 : max t m < 1 := max_lt ht hm
  rw [cash_score]
  nlinarith

/-- The three scores of one row sum to at least 0.7: the cash score
makes up what the strategies' maximum lacks below 1. -/
theorem score_sum_ge (t m v : ℝ) (ht0 : 0 < t) (ht1 : t < 1)
    (hm0 : 0 < m) (hm1 : m < 1) :
    7/10 ≤ t + m + cash_score t m v := by
  have h1 := sigmoid_pos (v - 35/100) 10
  have h2 : max t m ≤ t + m :=
    max_le_add_of_nonneg (le_of_lt ht0) (le_of_lt hm0)
  have h3 : 0 ≤ max t m := le_trans (le_of_lt ht0) (le_max_left t m)
  rw [cash_score]
  nlinarith

/-- The eps-regularized ratio of a bounded-below sum is within
`eps / bound` of 1. -/
theorem eps_ratio_bound (S q0 : ℝ) (hq : 0 < q0) (hS : q0 ≤ S) :
    |S / (S + softEps) - 1| ≤ softEps / q0 := by
  have hE : (0:ℝ) < softEps := by norm_num [softEps]
  have hD : 0 < S + softEps := by linarith
  have h1 : S / (S + softEps) - 1 = -(softEps / (S + softEps)) := by
    field_simp
  rw [h1, abs_neg, abs_of_nonneg (by positivity)]
  exact div_le_div_of_nonneg_left (le_of_lt hE) hq (by linarith)

/-- Bounds for the normalized score vector: each weight lies in [0, 1]
and the weight sum is within `eps / 0.7` of 1 when the scores are
positive and sum to at least 0.7. -/
theorem scores_to_weights_bounds (t m c : ℝ) (ht : 0 < t) (hm : 0 < m)
    (hc : 0 < c) (hS : 7/10 ≤ t + m + c) :
    0 ≤ (scores_to_weights t m c).wTrend ∧
    0 ≤ (scores_to_weights t m c).wMeanrev ∧
    0 ≤ (scores_to_weights t m c).wCash ∧
    (scores_to_weights t m c).wTrend ≤ 1 ∧
    (scores_to_weights t m c).wMeanrev ≤ 1 ∧
    (scores_to_weights t m c).wCash ≤ 1 ∧
    9/10 ≤ (scores_to_weights t m c).wTrend +
      (scores_to_weights t m c).wMeanrev +
      (scores_to_weights t m c).wCash ∧
    |(scores_to_weights t m c).wTrend +
      (scores_to_weights t m c).wMeanrev +
      (scores_to_weights t m c).wCash - 1| ≤ 1/10^9 := by
  have hE : (0:ℝ) < softEps := by norm_num [softEps]
  have hD : 0 < t + m + c + softEps := by linarith
  have hsum : (scores_to_weights t m c).wTrend +
      (scores_to_weights t m c).wMeanrev +
      (scores_to_weights t m c).wCash =
      (t + m + c) / (t + m + c + softEps) := by
    simp only [scores_to_weights]
    field_simp
  have habs : |(t + m + c) / (t + m + c + softEps) - 1| ≤
      softEps / (7/10) := by
    have := eps_ratio_bound (t + m + c) (7/10) (by norm_num) hS
    simpa using this
  have hEb : softEps / (7/10) ≤ 1/10^9 := by norm_num [softEps]
  refine ⟨?_, ?_, ?_, ?_, ?_, ?_, ?_, ?_⟩
  · exact div_nonneg (le_of_lt ht) (le_of_lt hD)
  · exact div_nonneg (le_of_lt hm) (le_of_lt hD)
  · exact div_nonneg (le_of_lt hc) (le_of_lt hD)
  · rw [scores_to_weights]; exact (div_le_one hD).mpr (by linarith)
  · rw [scores_to_weights]; exact (div_le_one hD).mpr (by linarith)
  · rw [scores_to_weights]; exact (div_le_one hD).mpr (by linarith)
  · rw [hsum]
    have h1 : |(t + m + c) / (t + m + c + softEps) - 1| ≤ 1/10 := by
      calc |(t + m + c) / (t + m + c + softEps) - 1| ≤ softEps / (7/10) :=
            habs
      _ ≤ 1/10 := by norm_num [softEps]
    have := abs_le.mp h1
    linarith [this.1]
  · rw [hsum]
    exact le_trans habs hEb

/-- On a fully defined row the soft blender computes the three scores
and normalizes them. -/
theorem compute_soft_weights_row_def (m20 m60 v20 d60 : ℚ) :
    compute_soft_weights_row ⟨some m20, some m60, some v20, some d60⟩ =
      scores_to_weights (trend_score (m60:ℝ) (m20:ℝ))
        (meanrev_score (m20:ℝ) (d60:ℝ) (v20:ℝ))
        (cash_score (trend_score (m60:ℝ) (m20:ℝ))
          (meanrev_score (m20:ℝ) (d60:ℝ) (v20:ℝ)) (v20:ℝ)) := rfl

/-- Bounds for the power-normalized vector: for weights in [0, 1]
summing to at least 0.9 and an exponent gamma in [1, 10], the
renormalized components are nonnegative and their sum is within 1e-6
of 1 (the powered sum stays far above the eps regularizer). -/
theorem power_normalize_bounds (wt wm wc γ : ℝ)
    (h0t : 0 ≤ wt) (h0m : 0 ≤ wm) (h0c : 0 ≤ wc)
    (h1t : wt ≤ 1) (h1m : wm ≤ 1) (h1c : wc ≤ 1)
    (hsum : 9/10 ≤ wt + wm + wc) (hγ1 : 1 ≤ γ) (hγ10 : γ ≤ 10) :
    0 ≤ (power_normalize_weights wt wm wc γ).wTrend ∧
    0 ≤ (power_normalize_weights wt wm wc γ).wMeanrev ∧
    0 ≤ (power_normalize_weights wt wm wc γ).wCash ∧
    |(power_normalize_weights wt wm wc γ).wTrend +
      (power_normalize_weights wt wm wc γ).wMeanrev +
      (power_normalize_weights wt wm wc γ).wCash - 1| ≤ 1/10^6 := by
  have hE : (0:ℝ) < softEps := by norm_num [softEps]
  have hcomp : power_normalize_weights wt wm wc γ =
      ⟨wt ^ γ / (wt ^ γ + wm ^ γ + wc ^ γ + softEps),
       wm ^ γ / (wt ^ γ + wm ^ γ + wc ^ γ + softEps),
       wc ^ γ / (wt ^ γ + wm ^ γ + wc ^ γ + softEps)⟩ := by
    simp only [power_normalize_weights, max_eq_left h0t,
      max_eq_left h0m, max_eq_left h0c]
  have hpt : 0 ≤ wt ^ γ := Real.rpow_nonneg h0t γ
  have hpm : 0 ≤ wm ^ γ := Real.rpow_nonneg h0m γ
  have hpc : 0 ≤ wc ^ γ := Real.rpow_nonneg h0c γ
  have hq0 : (0:ℝ) < (3/10) ^ (10:ℕ) := by positivity
  have key : ((3:ℝ)/10) ^ (10:ℕ) ≤ wt ^ γ + wm ^ γ + wc ^ γ := by
    have hone : 3/10 ≤ wt ∨ 3/10 ≤ wm ∨ 3/10 ≤ wc := by
      by_contra hcon
      push_neg at hcon
      obtain ⟨c1, c2, c3⟩ := hcon
      linarith
    have hgen : ∀ w : ℝ, 3/10 ≤ w → w ≤ 1 →
        ((3:ℝ)/10) ^ (10:ℕ) ≤ w ^ γ := by
      intro w hw hw1
      have hw0 : (0:ℝ) < w := lt_of_lt_of_le (by norm_num) hw
      have e1 : w ^ (10:ℝ) ≤ w ^ γ :=
        Real.rpow_le_rpow_of_exponent_ge hw0 hw1 hγ10
      have e2 : ((3:ℝ)/10) ^ (10:ℝ) ≤ w ^ (10:ℝ) :=
        Real.rpow_le_rpow (by norm_num) hw (by norm_num)
      have e3 : ((3:ℝ)/10) ^ (10:ℝ) = ((3:ℝ)/10) ^ (10:ℕ) := by
        rw [← Real.rpow_natCast]
        norm_num
      linarith
    rcases hone with hw | hw | hw
    · have := hgen wt hw h1t; linarith
    · have := hgen wm hw h1m; linarith
    · have := hgen wc hw h1c; linarith
  have hD : 0 < wt ^ γ + wm ^ γ + wc ^ γ + softEps := by linarith
  have hsum2 : (power_normalize_weights wt wm wc γ).wTrend +
      (power_normalize_weights wt wm wc γ).wMeanrev +
      (power_normalize_weights wt wm wc γ).wCash =
      (wt ^ γ + wm ^ γ + wc ^ γ) /
        (wt ^ γ + wm ^ γ + wc ^ γ + softEps) := by
    rw [hcomp]
    field_simp
  refine ⟨?_, ?_, ?_, ?_⟩
  · rw [hcomp]; exact div_nonneg hpt (le_of_lt hD)
  · rw [hcomp]; exact div_nonneg hpm (le_of_lt hD)
  · rw [hcomp]; exact div_nonneg hpc (le_of_lt hD)
  · rw [hsum2]
    calc |(wt ^ γ + wm ^ γ + wc ^ γ) /
          (wt ^ γ + wm ^ γ + wc ^ γ + softEps) - 1|
        ≤ softEps / ((3/10) ^ (10:ℕ)) :=
          eps_ratio_bound (wt ^ γ + wm ^ γ + wc ^ γ) ((3/10) ^ (10:ℕ))
            hq0 key
    _ ≤ 1/10^6 := by norm_num [softEps]

/-- C7, amended.  Soft-blend normalization: for every fully defined
feature row the weights of `compute_soft_weights_row` are each
nonnegative and sum to 1 within 1e-9 of floating tolerance; and for
every sharpening exponent gamma in the bounded range [1, 10] the vector
returned by `power_normalize_weights` applied to those weights is again
nonnegative with sum within 1e-6 of 1.  (For unboundedly large gamma
the powered weights sink below the 1e-12 regularizer and the sum
collapses, so the range restriction is necessary.) -/
theorem soft_blend_normalization :
    (∀ m20 m60 v20 d60 : ℚ,
      0 ≤ (compute_soft_weights_row
        ⟨some m20, some m60, some v20, some d60⟩).wTrend ∧
      0 ≤ (compute_soft_weights_row
        ⟨some m20, some m60, some v20, some d60⟩).wMeanrev ∧
      0 ≤ (compute_soft_weights_row
        ⟨some m20, some m60, some v20, some d60⟩).wCash ∧
      |(compute_soft_weights_row
          ⟨some m20, some m60, some v20, some d60⟩).wTrend +
        (compute_soft_weights_row
          ⟨some m20, some m60, some v20, some d60⟩).wMeanrev +
        (compute_soft_weights_row
          ⟨some m20, some m60, some v20, some d60⟩).wCash - 1|
        ≤ 1/10^9) ∧
    (∀ (m20 m60 v20 d60 : ℚ) (γ : ℝ), 1 ≤ γ → γ ≤ 10 →
      0 ≤ (power_normalize_weights
        (compute_soft_weights_row
          ⟨some m20, some m60, some v20, some d60⟩).wTrend
        (compute_soft_weights_row
          ⟨some m20, some m60, some v20, some d60⟩).wMeanrev
        (compute_soft_weights_row
          ⟨some m20, some m60, some v20, some d60⟩).wCash γ).wTrend ∧
      0 ≤ (power_normalize_weights
        (compute_soft_weights_row
          ⟨some m20, some m60, some v20, some d60⟩).wTrend
        (compute_soft_weights_row
          ⟨some m20, some m60, some v20, some d60⟩).wMeanrev
        (compute_soft_weights_row
          ⟨some m20, some m60, some v20, some d60⟩).wCash γ).wMeanrev ∧
      0 ≤ (power_normalize_weights
        (compute_soft_weights_row
          ⟨some m20, some m60, some v20, some d60⟩).wTrend
        (compute_soft_weights_row
          ⟨some m20, some m60, some v20, some d60⟩).wMeanrev
        (compute_soft_weights_row
          ⟨some m20, some m60, some v20, some d60⟩).wCash γ).wCash ∧
      |(power_normalize_weights
          (compute_soft_weights_row
            ⟨some m20, some m60, some v20, some d60⟩).wTrend
          (compute_soft_weights_row
            ⟨some m20, some m60, some v20, some d60⟩).wMeanrev
          (compute_soft_weights_row
            ⟨some m20, some m60, some v20, some d60⟩).wCash γ).wTrend +
        (power_normalize_weights
          (compute_soft_weights_row
            ⟨some m20, some m60, some v20, some d60⟩).wTrend
          (compute_soft_weights_row
            ⟨some m20, some m60, some v20, some d60⟩).wMeanrev
          (compute_soft_weights_row
            ⟨some m20, some m60, some v20, some d60⟩).wCash γ).wMeanrev +
        (power_normalize_weights
          (compute_soft_weights_row
            ⟨some m20, some m60, some v20, some d60⟩).wTrend
          (compute_soft_weights_row
            ⟨some m20, some m60, some v20, some d60⟩).wMeanrev
          (compute_soft_weights_row
            ⟨some m20, some m60, some v20, some d60⟩).wCash γ).wCash - 1|
        ≤ 1/10^6) := by
  have hbase : ∀ m20 m60 v20 d60 : ℚ,
      0 ≤ (compute_soft_weights_row
        ⟨some m20, some m60, some v20, some d60⟩).wTrend ∧
      0 ≤ (compute_soft_weights_row
        ⟨some m20, some m60, some v20, some d60⟩).wMeanrev ∧
      0 ≤ (compute_soft_weights_row
        ⟨some m20, some m60, some v20, some d60⟩).wCash ∧
      (compute_soft_weights_row
        ⟨some m20, some m60, some v20, some d60⟩).wTrend ≤ 1 ∧
      (compute_soft_weights_row
        ⟨some m20, some m60, some v20, some d60⟩).wMeanrev ≤ 1 ∧
      (compute_soft_weights_row
        ⟨some m20, some m60, some v20, some d60⟩).wCash ≤ 1 ∧
      9/10 ≤ (compute_soft_weights_row
          ⟨some m20, some m60, some v20, some d60⟩).wTrend +
        (compute_soft_weights_row
          ⟨some m20, some m60, some v20, some d60⟩).wMeanrev +
        (compute_soft_weights_row
          ⟨some m20, some m60, some v20, some d60⟩).wCash ∧
      |(compute_soft_weights_row
          ⟨some m20, some m60, some v20, some d60⟩).wTrend +
        (compute_soft_weights_row
          ⟨some m20, some m60, some v20, some d60⟩).wMeanrev +
        (compute_soft_weights_row
          ⟨some m20, some m60, some v20, some d60⟩).wCash - 1|
        ≤ 1/10^9 := by
    intro m20 m60 v20 d60
    rw [compute_soft_weights_row_def]
    obtain ⟨ht0, ht1⟩ := trend_score_bounds (m60:ℝ) (m20:ℝ)
    obtain ⟨hm0, hm1⟩ := meanrev_score_bounds (m20:ℝ) (d60:ℝ) (v20:ℝ)
    have hc0 := cash_score_pos _ _ (v20:ℝ) ht1 hm1
    have hS := score_sum_ge _ _ (v20:ℝ) ht0 ht1 hm0 hm1
    exact scores_to_weights_bounds _ _ _ ht0 hm0 hc0 hS
  constructor
  · intro m20 m60 v20 d60
    obtain ⟨a, b, c, _, _, _, _, d⟩ := hbase m20 m60 v20 d60
    exact ⟨a, b, c, d⟩
  · intro m20 m60 v20 d60 γ hγ1 hγ10
    obtain ⟨a, b, c, d, e, f, g, _⟩ := hbase m20 m60 v20 d60
    exact power_normalize_bounds _ _ _ γ a b c d e f g hγ1 hγ10

/-- Witness for soft-blend normalization: at gamma = 1 on a concrete
defined row the power-normalized trend weight is nonnegative and the
power-normalized sum is within 1e-6 of 1. -/
theorem soft_blend_normalization_witness :
    0 ≤ (power_normalize_weights
      (compute_soft_weights_row ⟨some 0, some 0, some (2/5), some 0⟩).wTrend
      (compute_soft_weights_row ⟨some 0, some 0, some (2/5), some 0⟩).wMeanrev
      (compute_soft_weights_row ⟨some 0, some 0, some (2/5), some 0⟩).wCash
      1).wTrend ∧
    |(power_normalize_weights
        (compute_soft_weights_row ⟨some 0, some 0, some (2/5), some 0⟩).wTrend
        (compute_soft_weights_row ⟨some 0, some 0, some (2/5), some 0⟩).wMeanrev
        (compute_soft_weights_row ⟨some 0, some 0, some (2/5), some 0⟩).wCash
        1).wTrend +
      (power_normalize_weights
        (compute_soft_weights_row ⟨some 0, some 0, some (2/5), some 0⟩).wTrend
        (compute_soft_weights_row ⟨some 0, some 0, some (2/5), some 0⟩).wMeanrev
        (compute_soft_weights_row ⟨some 0, some 0, some (2/5), some 0⟩).wCash
        1).wMeanrev +
      (power_normalize_weights
        (compute_soft_weights_row ⟨some 0, some 0, some (2/5), some 0⟩).wTrend
        (compute_soft_weights_row ⟨some 0, some 0, some (2/5), some 0⟩).wMeanrev
        (compute_soft_weights_row ⟨some 0, some 0, some (2/5), some 0⟩).wCash
        1).wCash - 1| ≤ 1/10^6 := by
  obtain ⟨a, _, _, d⟩ :=
    soft_blend_normalization.2 0 0 (2/5) 0 1 (by norm_num) (by norm_num)
  exact ⟨a, d⟩

/-- C7, counterexample to the claim as stated.  The claim quantifies
over every gamma at least 1, but at gamma = 100 on the concrete defined
feature row (mom_20 = 0, mom_60 = 0, vol_20 = 0.4, drawdown_60 = 0),
whose soft weights are all at most 0.7, the powered weights fall below
the 1e-12 regularizer of `power_normalize_weights` and the renormalized
components sum to less than 1/2 — not 1 within any floating
tolerance. -/
theorem power_normalize_large_gamma_cx :
    (power_normalize_weights
        (compute_soft_weights_row ⟨some 0, some 0, some (2/5), some 0⟩).wTrend
        (compute_soft_weights_row ⟨some 0, some 0, some (2/5), some 0⟩).wMeanrev
        (compute_soft_weights_row ⟨some 0, some 0, some (2/5), some 0⟩).wCash
        100).wTrend +
      (power_normalize_weights
        (compute_soft_weights_row ⟨some 0, some 0, some (2/5), some 0⟩).wTrend
        (compute_soft_weights_row ⟨some 0, some 0, some (2/5), some 0⟩).wMeanrev
        (compute_soft_weights_row ⟨some 0, some 0, some (2/5), some 0⟩).wCash
        100).wMeanrev +
      (power_normalize_weights
        (compute_soft_weights_row ⟨some 0, some 0, some (2/5), some 0⟩).wTrend
        (compute_soft_weights_row ⟨some 0, some 0, some (2/5), some 0⟩).wMeanrev
        (compute_soft_weights_row ⟨some 0, some 0, some (2/5), some 0⟩).wCash
        100).wCash < 1/2 := by
  have hE : (0:ℝ) < softEps := by norm_num [softEps]
  have hrow : compute_soft_weights_row ⟨some 0, some 0, some (2/5), some 0⟩ =
      scores_to_weights (1/4) (1/8) (cash_score (1/4) (1/8) (2/5)) := by
    rw [compute_soft_weights_row_def]
    have h1 : trend_score ((0:ℚ):ℝ) ((0:ℚ):ℝ) = 1/4 := by
      rw [trend_score]
      push_cast
      rw [sigmoid_zero]
      norm_num
    have h2 : meanrev_score ((0:ℚ):ℝ) ((0:ℚ):ℝ) (((2:ℚ)/5:ℚ):ℝ) = 1/8 := by
      rw [meanrev_score]
      push_cast
      rw [neg_zero, show (40:ℝ)/100 - 2/5 = 0 by norm_num, sigmoid_zero,
        sigmoid_zero]
      norm_num
    rw [h1, h2]
    have h3 : (((2:ℚ)/5:ℚ):ℝ) = (2:ℝ)/5 := by push_cast; ring
    rw [h3]
  have hσ0 := sigmoid_pos ((2:ℝ)/5 - 35/100) 10
  have hσ1 := sigmoid_lt_one ((2:ℝ)/5 - 35/100) 10
  have hcval : cash_score (1/4) (1/8) (2/5) =
      21/40 + 3/10 * sigmoid ((2:ℝ)/5 - 35/100) 10 := by
    rw [cash_score, max_eq_left (by norm_num : (1:ℝ)/8 ≤ 1/4)]
    ring
  have hc_lo : 21/40 < cash_score (1/4) (1/8) (2/5) := by
    rw [hcval]; linarith
  have hc_hi : cash_score (1/4) (1/8) (2/5) < 33/40 := by
    rw [hcval]; linarith
  have hD : (0:ℝ) < 1/4 + 1/8 + cash_score (1/4) (1/8) (2/5) + softEps := by
    linarith
  have hD9 : (9:ℝ)/10 < 1/4 + 1/8 + cash_score (1/4) (1/8) (2/5) + softEps := by
    linarith
  have hwt7 : (scores_to_weights (1/4) (1/8)
      (cash_score (1/4) (1/8) (2/5))).wTrend ≤ 7/10 := by
    show (1:ℝ)/4 / (1/4 + 1/8 + cash_score (1/4) (1/8) (2/5) + softEps)
      ≤ 7/10
    rw [div_le_iff hD]
    nlinarith
  have hwm7 : (scores_to_weights (1/4) (1/8)
      (cash_score (1/4) (1/8) (2/5))).wMeanrev ≤ 7/10 := by
    show (1:ℝ)/8 / (1/4 + 1/8 + cash_score (1/4) (1/8) (2/5) + softEps)
      ≤ 7/10
    rw [div_le_iff hD]
    nlinarith
  have hwc7 : (scores_to_weights (1/4) (1/8)
      (cash_score (1/4) (1/8) (2/5))).wCash ≤ 7/10 := by
    show cash_score (1/4) (1/8) (2/5) /
      (1/4 + 1/8 + cash_score (1/4) (1/8) (2/5) + softEps) ≤ 7/10
    rw [div_le_iff hD]
    nlinarith
  have hwt0 : 0 ≤ (scores_to_weights (1/4) (1/8)
      (cash_score (1/4) (1/8) (2/5))).wTrend := by
    show (0:ℝ) ≤ 1/4 / (1/4 + 1/8 + cash_score (1/4) (1/8) (2/5) + softEps)
    positivity
  have hwm0 : 0 ≤ (scores_to_weights (1/4) (1/8)
      (cash_score (1/4) (1/8) (2/5))).wMeanrev := by
    show (0:ℝ) ≤ 1/8 / (1/4 + 1/8 + cash_score (1/4) (1/8) (2/5) + softEps)
    positivity
  have hwc0 : 0 ≤ (scores_to_weights (1/4) (1/8)
      (cash_score (1/4) (1/8) (2/5))).wCash := by
    show (0:ℝ) ≤ cash_score (1/4) (1/8) (2/5) /
      (1/4 + 1/8 + cash_score (1/4) (1/8) (2/5) + softEps)
    have := hc_lo
    positivity
  rw [hrow]
  have hfin : ∀ w : ℝ, 0 ≤ w → w ≤ 7/10 →
      w ^ (100:ℝ) ≤ ((7:ℝ)/10) ^ (100:ℕ) := by
    intro w h0 h7
    have e2 : w ^ (100:ℝ) ≤ ((7:ℝ)/10) ^ (100:ℝ) :=
      Real.rpow_le_rpow h0 h7 (by norm_num)
    have e3 : ((7:ℝ)/10) ^ (100:ℝ) = ((7:ℝ)/10) ^ (100:ℕ) := by
      rw [← Real.rpow_natCast]
      norm_num
    linarith
  have hat := hfin _ hwt0 hwt7
  have ham := hfin _ hwm0 hwm7
  have hac := hfin _ hwc0 hwc7
  have hpt := Real.rpow_nonneg hwt0 (100:ℝ)
  have hpm := Real.rpow_nonneg hwm0 (100:ℝ)
  have hpc := Real.rpow_nonneg hwc0 (100:ℝ)
  have hcomp : power_normalize_weights
      (scores_to_weights (1/4) (1/8) (cash_score (1/4) (1/8) (2/5))).wTrend
      (scores_to_weights (1/4) (1/8) (cash_score (1/4) (1/8) (2/5))).wMeanrev
      (scores_to_weights (1/4) (1/8) (cash_score (1/4) (1/8) (2/5))).wCash
      100 =
      ⟨(scores_to_weights (1/4) (1/8)
          (cash_score (1/4) (1/8) (2/5))).wTrend ^ (100:ℝ) /
        ((scores_to_weights (1/4) (1/8)
            (cash_score (1/4) (1/8) (2/5))).wTrend ^ (100:ℝ) +
          (scores_to_weights (1/4) (1/8)
            (cash_score (1/4) (1/8) (2/5))).wMeanrev ^ (100:ℝ) +
          (scores_to_weights (1/4) (1/8)
            (cash_score (1/4) (1/8) (2/5))).wCash ^ (100:ℝ) + softEps),
       (scores_to_weights (1/4) (1/8)
          (cash_score (1/4) (1/8) (2/5))).wMeanrev ^ (100:ℝ) /
        ((scores_to_weights (1/4) (1/8)
            (cash_score (1/4) (1/8) (2/5))).wTrend ^ (100:ℝ) +
          (scores_to_weights (1/4) (1/8)
            (cash_score (1/4) (1/8) (2/5))).wMeanrev ^ (100:ℝ) +
          (scores_to_weights (1/4) (1/8)
            (cash_score (1/4) (1/8) (2/5))).wCash ^ (100:ℝ) + softEps),
       (scores_to_weights (1/4) (1/8)
          (cash_score (1/4) (1/8) (2/5))).wCash ^ (100:ℝ) /
        ((scores_to_weights (1/4) (1/8)
            (cash_score (1/4) (1/8) (2/5))).wTrend ^ (100:ℝ) +
          (scores_to_weights (1/4) (1/8)
            (cash_score (1/4) (1/8) (2/5))).wMeanrev ^ (100:ℝ) +
          (scores_to_weights (1/4) (1/8)
            (cash_score (1/4) (1/8) (2/5))).wCash ^ (100:ℝ) + softEps)⟩ := by
    simp only [power_normalize_weights, max_eq_left hwt0,
      max_eq_left hwm0, max_eq_left hwc0]
  rw [hcomp]
  simp only
  rw [div_add_div_same, div_add_div_same]
  have hP0 : 0 ≤ (scores_to_weights (1/4) (1/8)
        (cash_score (1/4) (1/8) (2/5))).wTrend ^ (100:ℝ) +
      (scores_to_weights (1/4) (1/8)
        (cash_score (1/4) (1/8) (2/5))).wMeanrev ^ (100:ℝ) +
      (scores_to_weights (1/4) (1/8)
        (cash_score (1/4) (1/8) (2/5))).wCash ^ (100:ℝ) := by
    linarith
  have hPB : (scores_to_weights (1/4) (1/8)
        (cash_score (1/4) (1/8) (2/5))).wTrend ^ (100:ℝ) +
      (scores_to_weights (1/4) (1/8)
        (cash_score (1/4) (1/8) (2/5))).wMeanrev ^ (100:ℝ) +
      (scores_to_weights (1/4) (1/8)
        (cash_score (1/4) (1/8) (2/5))).wCash ^ (100:ℝ)
      ≤ 3 * ((7:ℝ)/10) ^ (100:ℕ) := by
    linarith
  calc ((scores_to_weights (1/4) (1/8)
          (cash_score (1/4) (1/8) (2/5))).wTrend ^ (100:ℝ) +
        (scores_to_weights (1/4) (1/8)
          (cash_score (1/4) (1/8) (2/5))).wMeanrev ^ (100:ℝ) +
        (scores_to_weights (1/4) (1/8)
          (cash_score (1/4) (1/8) (2/5))).wCash ^ (100:ℝ)) /
        ((scores_to_weights (1/4) (1/8)
            (cash_score (1/4) (1/8) (2/5))).wTrend ^ (100:ℝ) +
          (scores_to_weights (1/4) (1/8)
            (cash_score (1/4) (1/8) (2/5))).wMeanrev ^ (100:ℝ) +
          (scores_to_weights (1/4) (1/8)
            (cash_score (1/4) (1/8) (2/5))).wCash ^ (100:ℝ) + softEps)
      ≤ ((scores_to_weights (1/4) (1/8)
          (cash_score (1/4) (1/8) (2/5))).wTrend ^ (100:ℝ) +
        (scores_to_weights (1/4) (1/8)
          (cash_score (1/4) (1/8) (2/5))).wMeanrev ^ (100:ℝ) +
        (scores_to_weights (1/4) (1/8)
          (cash_score (1/4) (1/8) (2/5))).wCash ^ (100:ℝ)) / softEps :=
      div_le_div_of_nonneg_left hP0 hE (by linarith)
  _ ≤ (3 * ((7:ℝ)/10) ^ (100:ℕ)) / softEps :=
      (div_le_div_right hE).mpr hPB
  _ < 1/2 := by norm_num [softEps]

/-- Witness for the holding-period invariant: a concrete entry at date 0
with hold 2 in the walk-forward engine is flat at date 2, and a concrete
trend entry at date 0 records position 1 at date 0. -/
theorem holding_period_invariant_witness :
    ((run_strategy_core ⟨2, 0, 0, 1⟩
        [⟨1, 1, 0⟩, ⟨1, 0, 0⟩, ⟨1, 0, 0⟩])[0 + 2]?).map Rec.pos = some 0 ∧
    (generate_trend_positions 2 [true, false, true])[0 + 0]? = some 1 := by
  constructor
  · exact (holding_period_invariant.1 ⟨2, 0, 0, 1⟩
      [⟨1, 1, 0⟩, ⟨1, 0, 0⟩, ⟨1, 0, 0⟩] 0 ⟨1, 1, 0⟩ (by norm_num) rfl rfl
      (show 0 < (1:ℚ) ∧ (0:ℚ) < 1 from ⟨by norm_num, by norm_num⟩)
      (by norm_num [wfEntrySize])).2.2 (by norm_num)
  · exact (holding_period_invariant.2 2 [true, false, true] 0 (by norm_num)
      (show (0:ℤ) ≤ 0 from le_refl 0) rfl).1 0 (by norm_num) (by norm_num)

end Rosemary
